import Mathlib

set_option maxHeartbeats 1000000

/-
Verification of the mongoquerier projection engine.

The Go source under study is src/unnamed/part_000: the functions
StructToM, CastStruct and CastInto.  The embedding below models:
  - generic JSON trees (the Serialized Intermediate Form), since
    encoding/json round-trips happen at tree level;
  - Go values of the kinds the engine inspects: bools, ints, floats as
    rationals, strings, structs as ordered field lists carrying the Go
    field name and the raw json tag, pointers (nil or pointing to a
    value), slices and string-keyed maps (nil or holding elements), and
    an opaque JSON-unsupported value standing for channels or
    functions, which json.Marshal rejects;
  - the json tag conventions used by both encoding/json and StructToM:
    the name before the first comma, defaulting to the Go field name;
    the omitempty option; the whole-tag "-" skip marker;
  - reflect.Zero and reflect.DeepEqual as used by the elision check,
    and the reflect panic on NumField for non-struct kinds.

Field sequences, slice elements and map entries are their own mutually
inductive types rather than nested List values so that every function
below is structurally recursive and computes by definitional reduction.

Scope notes on the stdlib model: struct fields are named and exported,
tag names are taken as valid, anonymous embedding is not modelled, and
maps are association sequences in a fixed order (Go maps are unordered
and json.Marshal sorts their keys; any fixed order is an artifact).
-/

inductive Jsonv where
| jnull : Jsonv
| jbool : Bool → Jsonv
| jnum : Rat → Jsonv
| jstr : String → Jsonv
| jarr : List Jsonv → Jsonv
| jobj : List (String × Jsonv) → Jsonv

mutual
/-- A Go value, as far as the projection engine inspects values.  A
struct value is its ordered field sequence; every field carries the Go
field name, the raw json tag string, and the field value.  vChan
stands for any value of a kind that encoding/json rejects (channel,
function, complex); GoType below has no constructor for it. -/
inductive GoValue where
| vBool : Bool → GoValue
| vInt : Int → GoValue
| vFloat : Rat → GoValue
| vStr : String → GoValue
| vStruct : GoFields → GoValue
| vPtrNil : GoValue
| vPtrTo : GoValue → GoValue
| vSliceNil : GoValue
| vSliceOf : GoValues → GoValue
| vMapNil : GoValue
| vMapOf : GoKvs → GoValue
| vChan : GoValue

/-- The ordered field sequence of a struct value: Go field name, raw
json tag, field value. -/
inductive GoFields where
| nil : GoFields
| cons : String → String → GoValue → GoFields → GoFields

/-- The element sequence of a non-nil slice value. -/
inductive GoValues where
| nil : GoValues
| cons : GoValue → GoValues → GoValues

/-- The entry sequence of a non-nil string-keyed map value. -/
inductive GoKvs where
| nil : GoKvs
| cons : String → GoValue → GoKvs → GoKvs
end

/-- The result map of StructToM (bson.M), kept in insertion order. -/
abbrev BsonM := List (String × GoValue)

/-- The splitting of strings.Split(tag, ",") on character lists. -/
def splitCommaAux : List Char → List Char → List (List Char)
| [], acc => [acc.reverse]
| c :: cs, acc =>
  if c = ',' then acc.reverse :: splitCommaAux cs [] else splitCommaAux cs (c :: acc)

/-- strings.Split(tag, ",") from the source, on Lean strings. -/
def tagParts (tag : String) : List String :=
  (splitCommaAux tag.toList []).map (fun cs => String.mk cs)

/-- The part of the json tag before the first comma. -/
def tagHead (tag : String) : String := (tagParts tag).headD ""

/-- The external key of a field: strings.Split(tagValue, ",")[0],
falling back to the Go field name when that is empty.  This is the
resolution StructToM performs, and also the one encoding/json performs
for valid tag names. -/
def jsonKeyOf (name tag : String) : String :=
  if tagHead tag = "" then name else tagHead tag

/-- Whether the json tag carries the omitempty option. -/
def hasOmitempty (tag : String) : Bool :=
  ((tagParts tag).drop 1).contains "omitempty"

/-- The kind test fieldType.Type.Kind() == reflect.Struct. -/
def isStructKind : GoValue → Bool
| .vStruct _ => true
| _ => false

mutual
/-- reflect.Zero of the static type of a value, read off the value
shape: the zero of a field of struct type is the struct of zeros with
the same field structure, the zero of a pointer, slice or map is nil. -/
def zeroOf : GoValue → GoValue
| .vBool _ => .vBool false
| .vInt _ => .vInt 0
| .vFloat _ => .vFloat 0
| .vStr _ => .vStr ""
| .vStruct fs => .vStruct (zeroFields fs)
| .vPtrNil => .vPtrNil
| .vPtrTo _ => .vPtrNil
| .vSliceNil => .vSliceNil
| .vSliceOf _ => .vSliceNil
| .vMapNil => .vMapNil
| .vMapOf _ => .vMapNil
| .vChan => .vChan

def zeroFields : GoFields → GoFields
| .nil => .nil
| .cons n t v rest => .cons n t (zeroOf v) (zeroFields rest)
end

mutual
/-- reflect.DeepEqual restricted to two values of the same static
type, which is how StructToM uses it (zero value against current
value). -/
def deepEqual : GoValue → GoValue → Bool
| .vBool a, .vBool b => a == b
| .vInt a, .vInt b => a == b
| .vFloat a, .vFloat b => a == b
| .vStr a, .vStr b => a == b
| .vStruct fs, .vStruct gs => deepEqualFields fs gs
| .vPtrNil, .vPtrNil => true
| .vPtrTo a, .vPtrTo b => deepEqual a b
| .vSliceNil, .vSliceNil => true
| .vSliceOf xs, .vSliceOf ys => deepEqualElems xs ys
| .vMapNil, .vMapNil => true
| .vMapOf xs, .vMapOf ys => deepEqualKvs xs ys
| .vChan, .vChan => true
| _, _ => false

def deepEqualFields : GoFields → GoFields → Bool
| .nil, .nil => true
| .cons n t v fs, .cons n2 t2 v2 gs =>
  n == n2 && t == t2 && deepEqual v v2 && deepEqualFields fs gs
| _, _ => false

def deepEqualElems : GoValues → GoValues → Bool
| .nil, .nil => true
| .cons x xs, .cons y ys => deepEqual x y && deepEqualElems xs ys
| _, _ => false

def deepEqualKvs : GoKvs → GoKvs → Bool
| .nil, .nil => true
| .cons k v xs, .cons k2 v2 ys => k == k2 && deepEqual v v2 && deepEqualKvs xs ys
| _, _ => false
end

/-- The emptiness test encoding/json uses for the omitempty option:
false, zero numbers, the empty string, nil pointers, and nil or empty
slices and maps are empty; struct values never are. -/
def isEmptyValue : GoValue → Bool
| .vBool b => !b
| .vInt n => n == 0
| .vFloat q => q == 0
| .vStr s => s == ""
| .vStruct _ => false
| .vPtrNil => true
| .vPtrTo _ => false
| .vSliceNil => true
| .vSliceOf .nil => true
| .vSliceOf (.cons _ _) => false
| .vMapNil => true
| .vMapOf .nil => true
| .vMapOf (.cons _ _ _) => false
| .vChan => false

mutual
/-- json.Marshal at JSON tree level.  Fails (with the single abstract
error value) exactly on values encoding/json rejects. -/
def marshalValue : GoValue → Except Unit Jsonv
| .vBool b => .ok (.jbool b)
| .vInt n => .ok (.jnum n)
| .vFloat q => .ok (.jnum q)
| .vStr s => .ok (.jstr s)
| .vStruct fs =>
  match marshalFields fs with
  | .error e => .error e
  | .ok entries => .ok (.jobj entries)
| .vPtrNil => .ok .jnull
| .vPtrTo v => marshalValue v
| .vSliceNil => .ok .jnull
| .vSliceOf xs =>
  match marshalElems xs with
  | .error e => .error e
  | .ok js => .ok (.jarr js)
| .vMapNil => .ok .jnull
| .vMapOf kvs =>
  match marshalKvs kvs with
  | .error e => .error e
  | .ok es => .ok (.jobj es)
| .vChan => .error ()

def marshalFields : GoFields → Except Unit (List (String × Jsonv))
| .nil => .ok []
| .cons n t v rest =>
  if t = "-" then marshalFields rest
  else if hasOmitempty t && isEmptyValue v then marshalFields rest
  else
    match marshalValue v with
    | .error e => .error e
    | .ok j =>
      match marshalFields rest with
      | .error e => .error e
      | .ok es => .ok ((jsonKeyOf n t, j) :: es)

def marshalElems : GoValues → Except Unit (List Jsonv)
| .nil => .ok []
| .cons v vs =>
  match marshalValue v with
  | .error e => .error e
  | .ok j =>
    match marshalElems vs with
    | .error e => .error e
    | .ok js => .ok (j :: js)

def marshalKvs : GoKvs → Except Unit (List (String × Jsonv))
| .nil => .ok []
| .cons k v kvs =>
  match marshalValue v with
  | .error e => .error e
  | .ok j =>
    match marshalKvs kvs with
    | .error e => .error e
    | .ok es => .ok ((k, j) :: es)
end

/-- The decoded generic mapping: json.Unmarshal into a map with string
keys and interface values leaves the map nil on the JSON literal null,
fills it from a JSON object, and fails on every other JSON document. -/
abbrev JsonMap := Option (List (String × Jsonv))

/-- json.Unmarshal of a JSON document into map[string]interface. -/
def unmarshalToMap : Jsonv → Except Unit JsonMap
| .jnull => .ok none
| .jobj kvs => .ok (some kvs)
| _ => .error ()

/-- Key membership in the decoded mapping, the only query StructToM
performs on it. -/
def hasKey (m : JsonMap) (k : String) : Bool :=
  match m with
  | none => false
  | some kvs => kvs.any (fun kv => kv.1 == k)

/-- The observable outcomes of the Go function besides a result: a
returned error from json.Marshal, a returned error from
json.Unmarshal, or a reflect panic (NumField on a non-struct kind). -/
inductive Failure where
| encodeFailed : Failure
| decodeFailed : Failure
| panicked : Failure

mutual
/-- StructToM from the source: marshal the source to JSON, unmarshal
into a generic map, then iterate the struct fields in declaration
order; reflect.TypeOf(source).NumField() panics when the source is not
a struct kind. -/
def structToM : GoValue → Except Failure BsonM
| .vStruct fields =>
  match marshalValue (.vStruct fields) with
  | .error _ => .error .encodeFailed
  | .ok jsonSource =>
    match unmarshalToMap jsonSource with
    | .error _ => .error .decodeFailed
    | .ok data => fieldsToM fields data
| source =>
  match marshalValue source with
  | .error _ => .error .encodeFailed
  | .ok jsonSource =>
    match unmarshalToMap jsonSource with
    | .error _ => .error .decodeFailed
    | .ok _ => .error .panicked

/-- The field loop of StructToM, accumulating result entries in
iteration order.  Each iteration resolves the external key, skips the
field when the key is absent from the decoded map or the value
deep-equals the zero value of its type, recurses and re-keys with
dotted paths on struct kinds, and otherwise stores the value under the
key. -/
def fieldsToM : GoFields → JsonMap → Except Failure BsonM
| .nil, _ => .ok []
| .cons name tag v rest, data =>
  match
    (if hasKey data (jsonKeyOf name tag) then
      if deepEqual (zeroOf v) v then Except.ok []
      else if isStructKind v then
        match structToM v with
        | .error e => .error e
        | .ok valueMap =>
          .ok (valueMap.map (fun kv => (jsonKeyOf name tag ++ "." ++ kv.1, kv.2)))
      else Except.ok [(jsonKeyOf name tag, v)]
    else Except.ok []) with
  | .error e => .error e
  | .ok entries =>
    match fieldsToM rest data with
    | .error e => .error e
    | .ok es => .ok (entries ++ es)
end

/-- One iteration of the field loop of StructToM, as a standalone
function (fieldsToM inlines it for structural recursion; the two agree
definitionally, see fieldsToM_cons). -/
def fieldContribution (name tag : String) (v : GoValue) (data : JsonMap) :
    Except Failure BsonM :=
  if hasKey data (jsonKeyOf name tag) then
    if deepEqual (zeroOf v) v then Except.ok []
    else if isStructKind v then
      match structToM v with
      | .error e => .error e
      | .ok valueMap =>
        .ok (valueMap.map (fun kv => (jsonKeyOf name tag ++ "." ++ kv.1, kv.2)))
    else Except.ok [(jsonKeyOf name tag, v)]
  else Except.ok []

/-- The Serialized Intermediate Form of a value: the decoded generic
mapping obtained by the marshal and unmarshal steps of StructToM. -/
def intermediateMap (v : GoValue) : Except Unit JsonMap :=
  match marshalValue v with
  | .error _ => .error ()
  | .ok j => unmarshalToMap j

/-- The Product-style model of the concrete spec scenario: Name is
"Widget", Price is 0.0 (the zero value of its float type), Quantity is
5, with lower-case external keys. -/
def widget : GoValue := .vStruct
  (.cons "Name" "name" (.vStr "Widget")
  (.cons "Price" "price" (.vFloat 0)
  (.cons "Quantity" "quantity" (.vInt 5) .nil)))

/-- The nested-record model of the concrete spec scenario: an Address
struct field whose City is "Rome" and whose Zip is the empty string. -/
def rome : GoValue := .vStruct
  (.cons "Address" "address"
    (.vStruct (.cons "City" "city" (.vStr "Rome") (.cons "Zip" "zip" (.vStr "") .nil)))
  .nil)

mutual
/-- Fuel-indexed variant of structToM: identical to structToM except
that one unit of fuel is consumed on entry, and the run reports none
when fuel runs out before the recursion completes.  It makes the
termination behaviour of the recursion observable. -/
def structToMFuel : Nat → GoValue → Option (Except Failure BsonM)
| 0, _ => none
| fuel + 1, .vStruct fields =>
  match marshalValue (.vStruct fields) with
  | .error _ => some (.error .encodeFailed)
  | .ok jsonSource =>
    match unmarshalToMap jsonSource with
    | .error _ => some (.error .decodeFailed)
    | .ok data => fieldsToMFuel fuel fields data
| _ + 1, source =>
  match marshalValue source with
  | .error _ => some (.error .encodeFailed)
  | .ok jsonSource =>
    match unmarshalToMap jsonSource with
    | .error _ => some (.error .decodeFailed)
    | .ok _ => some (.error .panicked)
termination_by fuel v => (fuel, sizeOf v)

/-- Fuel-indexed variant of fieldsToM. -/
def fieldsToMFuel : Nat → GoFields → JsonMap → Option (Except Failure BsonM)
| _, .nil, _ => some (.ok [])
| fuel, .cons name tag v rest, data =>
  match
    (if hasKey data (jsonKeyOf name tag) then
      if deepEqual (zeroOf v) v then some (Except.ok [])
      else if isStructKind v then
        match structToMFuel fuel v with
        | none => none
        | some (.error e) => some (.error e)
        | some (.ok valueMap) =>
          some (.ok (valueMap.map (fun kv => (jsonKeyOf name tag ++ "." ++ kv.1, kv.2))))
      else some (Except.ok [(jsonKeyOf name tag, v)])
    else some (Except.ok [])) with
  | none => none
  | some (.error e) => some (.error e)
  | some (.ok entries) =>
    match fieldsToMFuel fuel rest data with
    | none => none
    | some (.error e) => some (.error e)
    | some (.ok es) => some (.ok (entries ++ es))
termination_by fuel fs _ => (fuel, sizeOf fs)
end

mutual
/-- The struct-nesting depth of a value: how many levels of struct
kinds the field recursion of StructToM can descend through. -/
def structDepth : GoValue → Nat
| .vStruct fs => 1 + structDepthFields fs
| _ => 0

def structDepthFields : GoFields → Nat
| .nil => 0
| .cons _ _ v rest => max (structDepth v) (structDepthFields rest)
end

/-- A chain of singly nested structs of the given depth with a
non-zero string at the bottom, witnessing projections of arbitrary
nesting depth. -/
def nest : Nat → GoValue
| 0 => .vStr "x"
| n + 1 => .vStruct (.cons "F" "f" (nest n) .nil)

/-- The dotted key produced by projecting the nest chain. -/
def nestKey : Nat → String
| 0 => "f"
| n + 1 => "f." ++ nestKey n

/-- The JSON document produced by marshalling the nest chain. -/
def jnest : Nat → Jsonv
| 0 => .jstr "x"
| n + 1 => .jobj [("f", jnest n)]

mutual
/-- A Go type of the kinds a CastStruct destination can declare.  No
constructor exists for JSON-unsupported kinds (channels, functions),
which cannot appear in a decodable destination. -/
inductive GoType where
| tBool : GoType
| tInt : GoType
| tFloat : GoType
| tString : GoType
| tStruct : GoTypeFields → GoType
| tPtr : GoType → GoType
| tSlice : GoType → GoType
| tMap : GoType → GoType

/-- The ordered field list of a struct type: Go field name, raw json
tag, field type. -/
inductive GoTypeFields where
| nil : GoTypeFields
| cons : String → String → GoType → GoTypeFields → GoTypeFields
end

mutual
/-- The zero value of a type: what a freshly allocated destination
holds before json.Unmarshal fills it. -/
def zeroOfType : GoType → GoValue
| .tBool => .vBool false
| .tInt => .vInt 0
| .tFloat => .vFloat 0
| .tString => .vStr ""
| .tStruct fts => .vStruct (zeroOfTypeFields fts)
| .tPtr _ => .vPtrNil
| .tSlice _ => .vSliceNil
| .tMap _ => .vMapNil

def zeroOfTypeFields : GoTypeFields → GoFields
| .nil => .nil
| .cons n t ty rest => .cons n t (zeroOfType ty) (zeroOfTypeFields rest)
end

mutual
/-- Whether a value inhabits a type of the embedding. -/
def hasType : GoValue → GoType → Bool
| .vBool _, .tBool => true
| .vInt _, .tInt => true
| .vFloat _, .tFloat => true
| .vStr _, .tString => true
| .vStruct fs, .tStruct fts => hasTypeFields fs fts
| .vPtrNil, .tPtr _ => true
| .vPtrTo v, .tPtr ty => hasType v ty
| .vSliceNil, .tSlice _ => true
| .vSliceOf xs, .tSlice ty => hasTypeElems xs ty
| .vMapNil, .tMap _ => true
| .vMapOf kvs, .tMap ty => hasTypeKvs kvs ty
| _, _ => false

def hasTypeFields : GoFields → GoTypeFields → Bool
| .nil, .nil => true
| .cons n t v fs, .cons n2 t2 ty fts =>
  n == n2 && t == t2 && hasType v ty && hasTypeFields fs fts
| _, _ => false

def hasTypeElems : GoValues → GoType → Bool
| .nil, _ => true
| .cons v vs, ty => hasType v ty && hasTypeElems vs ty

def hasTypeKvs : GoKvs → GoType → Bool
| .nil, _ => true
| .cons _ v kvs, ty => hasType v ty && hasTypeKvs kvs ty
end

/-- Lower-casing of ASCII letters, used by the case-insensitive field
matching of json.Unmarshal. -/
def lowerChar (c : Char) : Char :=
  if 'A' ≤ c && c ≤ 'Z' then Char.ofNat (c.toNat + 32) else c

/-- Lower-casing of a key for case-insensitive matching. -/
def lowerStr (s : String) : String := String.mk (s.toList.map lowerChar)

/-- Exact-match lookup of a key among decoded JSON object entries,
later entries overwriting earlier ones as json.Unmarshal does. -/
def lookupExactLast (k : String) : List (String × Jsonv) → Option Jsonv
| [] => none
| (k2, j) :: rest =>
  match lookupExactLast k rest with
  | some r => some r
  | none => if k2 == k then some j else none

/-- Case-insensitive lookup of a key among decoded JSON object
entries, later entries overwriting earlier ones. -/
def lookupFoldLast (k : String) : List (String × Jsonv) → Option Jsonv
| [] => none
| (k2, j) :: rest =>
  match lookupFoldLast k rest with
  | some r => some r
  | none => if lowerStr k2 == lowerStr k then some j else none

/-- The field matching of json.Unmarshal: an exact match is preferred,
with a case-insensitive match as fallback. -/
def lookupKey (k : String) (entries : List (String × Jsonv)) : Option Jsonv :=
  match lookupExactLast k entries with
  | some j => some j
  | none => lookupFoldLast k entries

mutual
/-- json.Unmarshal of a JSON document into a typed destination, at
JSON tree level, with explicit fuel (structural recursion on the
fuel); the fuel-free wrapper below always supplies enough.  The JSON
literal null leaves the freshly zeroed destination unchanged; numbers
decode into int fields only when integral; unknown object keys are
ignored; fields of the destination absent from the object stay zero;
tag "-" fields are never filled; kind mismatches fail. -/
def unmarshalF : Nat → GoType → Jsonv → Except Unit GoValue
| 0, _, _ => .error ()
| _ + 1, ty, .jnull => .ok (zeroOfType ty)
| _ + 1, .tBool, .jbool b => .ok (.vBool b)
| _ + 1, .tInt, .jnum q => if q.den = 1 then .ok (.vInt q.num) else .error ()
| _ + 1, .tFloat, .jnum q => .ok (.vFloat q)
| _ + 1, .tString, .jstr s => .ok (.vStr s)
| fuel + 1, .tStruct fts, .jobj entries =>
  match unmarshalFieldsF fuel fts entries with
  | .error e => .error e
  | .ok fs => .ok (.vStruct fs)
| fuel + 1, .tPtr te, j =>
  match unmarshalF fuel te j with
  | .error e => .error e
  | .ok v => .ok (.vPtrTo v)
| fuel + 1, .tSlice te, .jarr js =>
  match unmarshalElemsF fuel te js with
  | .error e => .error e
  | .ok xs => .ok (.vSliceOf xs)
| fuel + 1, .tMap te, .jobj entries =>
  match unmarshalMapF fuel te entries with
  | .error e => .error e
  | .ok kvs => .ok (.vMapOf kvs)
| _ + 1, _, _ => .error ()

/-- Fuelled decoding of a struct destination, field by field. -/
def unmarshalFieldsF : Nat → GoTypeFields → List (String × Jsonv) → Except Unit GoFields
| 0, _, _ => .error ()
| _ + 1, .nil, _ => .ok .nil
| fuel + 1, .cons n t ty rest, entries =>
  match
    (if t = "-" then Except.ok (zeroOfType ty)
    else
      match lookupKey (jsonKeyOf n t) entries with
      | none => Except.ok (zeroOfType ty)
      | some j => unmarshalF fuel ty j) with
  | .error e => .error e
  | .ok v =>
    match unmarshalFieldsF fuel rest entries with
    | .error e => .error e
    | .ok fs => .ok (.cons n t v fs)

/-- Fuelled decoding of slice elements. -/
def unmarshalElemsF : Nat → GoType → List Jsonv → Except Unit GoValues
| 0, _, _ => .error ()
| _ + 1, _, [] => .ok .nil
| fuel + 1, te, j :: js =>
  match unmarshalF fuel te j with
  | .error e => .error e
  | .ok v =>
    match unmarshalElemsF fuel te js with
    | .error e => .error e
    | .ok vs => .ok (.cons v vs)

/-- Fuelled decoding of map entries. -/
def unmarshalMapF : Nat → GoType → List (String × Jsonv) → Except Unit GoKvs
| 0, _, _ => .error ()
| _ + 1, _, [] => .ok .nil
| fuel + 1, te, (k, j) :: es =>
  match unmarshalF fuel te j with
  | .error e => .error e
  | .ok v =>
    match unmarshalMapF fuel te es with
    | .error e => .error e
    | .ok kvs => .ok (.cons k v kvs)
end

mutual
/-- A node-count measure on values, driving the fuel bounds. -/
def goValueSize : GoValue → Nat
| .vBool _ => 1
| .vInt _ => 1
| .vFloat _ => 1
| .vStr _ => 1
| .vStruct fs => 1 + goFieldsSize fs
| .vPtrNil => 1
| .vPtrTo v => 1 + goValueSize v
| .vSliceNil => 1
| .vSliceOf xs => 1 + goValuesSize xs
| .vMapNil => 1
| .vMapOf kvs => 1 + goKvsSize kvs
| .vChan => 1

def goFieldsSize : GoFields → Nat
| .nil => 1
| .cons _ _ v rest => 1 + goValueSize v + goFieldsSize rest

def goValuesSize : GoValues → Nat
| .nil => 1
| .cons v rest => 1 + goValueSize v + goValuesSize rest

def goKvsSize : GoKvs → Nat
| .nil => 1
| .cons _ v rest => 1 + goValueSize v + goKvsSize rest
end

mutual
/-- A node-count measure on types, driving the fuel bounds. -/
def goTypeSize : GoType → Nat
| .tBool => 1
| .tInt => 1
| .tFloat => 1
| .tString => 1
| .tStruct fts => 1 + goTypeFieldsSize fts
| .tPtr ty => 1 + goTypeSize ty
| .tSlice ty => 1 + goTypeSize ty
| .tMap ty => 1 + goTypeSize ty

def goTypeFieldsSize : GoTypeFields → Nat
| .nil => 1
| .cons _ _ ty rest => 1 + goTypeSize ty + goTypeFieldsSize rest
end

mutual
/-- A node-count measure on JSON documents, used only in proofs. -/
def jsonvSize : Jsonv → Nat
| .jnull => 1
| .jbool _ => 1
| .jnum _ => 1
| .jstr _ => 1
| .jarr xs => 1 + jsonvListSize xs
| .jobj kvs => 1 + jsonvObjSize kvs

def jsonvListSize : List Jsonv → Nat
| [] => 1
| j :: js => 1 + jsonvSize j + jsonvListSize js

def jsonvObjSize : List (String × Jsonv) → Nat
| [] => 1
| (_, j) :: js => 1 + jsonvSize j + jsonvObjSize js
end

/-- The fuelled decoder gives this stable result on the document at
every sufficient fuel. -/
def UnmOk (ty : GoType) (j : Jsonv) (r : Except Unit GoValue) : Prop :=
  ∀ fuel, goTypeSize ty + jsonvSize j ≤ fuel → unmarshalF fuel ty j = r

/-- The fuelled struct-field decoder gives this stable result at every
sufficient fuel. -/
def UnmFieldsOk (fts : GoTypeFields) (entries : List (String × Jsonv))
    (r : Except Unit GoFields) : Prop :=
  ∀ fuel, goTypeFieldsSize fts + jsonvObjSize entries ≤ fuel →
    unmarshalFieldsF fuel fts entries = r

/-- The fuelled element decoder gives this stable result at every
sufficient fuel. -/
def UnmElemsOk (te : GoType) (js : List Jsonv) (r : Except Unit GoValues) : Prop :=
  ∀ fuel, goTypeSize te + jsonvListSize js ≤ fuel → unmarshalElemsF fuel te js = r

/-- The fuelled map-entry decoder gives this stable result at every
sufficient fuel. -/
def UnmKvsOk (te : GoType) (es : List (String × Jsonv)) (r : Except Unit GoKvs) : Prop :=
  ∀ fuel, goTypeSize te + jsonvObjSize es ≤ fuel → unmarshalMapF fuel te es = r

/-- CastStruct from the source: marshal the source to JSON and
unmarshal the JSON into a freshly zeroed destination of the given
type, returning the first error encountered.  The fuel is an artifact
of the embedding and is always sufficient: marshalling never enlarges
the node count (see marshal and decoder size lemmas), so the result is
the stable decoding of the marshalled document. -/
def castStruct (source : GoValue) (dest : GoType) : Except Unit GoValue :=
  match marshalValue source with
  | .error e => .error e
  | .ok sourceJSON => unmarshalF (goTypeSize dest + goValueSize source) dest sourceJSON

/-- Distinctness of a key list, as a boolean. -/
def nodupStr : List String → Bool
| [] => true
| x :: xs => !(xs.contains x) && nodupStr xs

/-- The external keys of a struct type, in declaration order. -/
def keysOfTypeFields : GoTypeFields → List String
| .nil => []
| .cons n t _ rest => jsonKeyOf n t :: keysOfTypeFields rest

/-- The external keys of a struct value, in declaration order. -/
def goFieldsKeys : GoFields → List String
| .nil => []
| .cons n t _ rest => jsonKeyOf n t :: goFieldsKeys rest

mutual
/-- Whether a struct type is plain for casting purposes: no skip
markers, no omitempty options, distinct external keys at every struct
level. -/
def cleanType : GoType → Bool
| .tStruct fts => nodupStr (keysOfTypeFields fts) && cleanFields fts
| .tPtr ty => cleanType ty
| .tSlice ty => cleanType ty
| .tMap ty => cleanType ty
| _ => true

def cleanFields : GoTypeFields → Bool
| .nil => true
| .cons _ t ty rest =>
  !(t == "-") && !(hasOmitempty t) && cleanType ty && cleanFields rest
end

/-- Whether a value marshals to the JSON literal null: nil pointers,
slices and maps do, also through pointers. -/
def marshalsToNull : GoValue → Bool
| .vPtrNil => true
| .vSliceNil => true
| .vMapNil => true
| .vPtrTo v => marshalsToNull v
| _ => false

mutual
/-- Whether a value is free of non-nil pointers to null-marshalling
values: json round-trips collapse a pointer to a null-marshalling
value into a nil pointer, so exact recovery needs this. -/
def noNullPtr : GoValue → Bool
| .vPtrTo v => !(marshalsToNull v) && noNullPtr v
| .vStruct fs => noNullPtrFields fs
| .vSliceOf xs => noNullPtrElems xs
| .vMapOf kvs => noNullPtrKvs kvs
| _ => true

def noNullPtrFields : GoFields → Bool
| .nil => true
| .cons _ _ v rest => noNullPtr v && noNullPtrFields rest

def noNullPtrElems : GoValues → Bool
| .nil => true
| .cons v rest => noNullPtr v && noNullPtrElems rest

def noNullPtrKvs : GoKvs → Bool
| .nil => true
| .cons _ v rest => noNullPtr v && noNullPtrKvs rest
end

/-- The field list of a struct type, for membership statements. -/
def typeFieldsList : GoTypeFields → List (String × String × GoType)
| .nil => []
| .cons n t ty rest => (n, t, ty) :: typeFieldsList rest

/-- Compatibility of two struct types for casting: any two fields
whose external keys collide case-insensitively have equal keys and
equal types. -/
def CrossCompat (fts gts : GoTypeFields) : Prop :=
  ∀ f1 ∈ typeFieldsList fts, ∀ f2 ∈ typeFieldsList gts,
    lowerStr (jsonKeyOf f1.1 f1.2.1) = lowerStr (jsonKeyOf f2.1 f2.2.1) →
    jsonKeyOf f1.1 f1.2.1 = jsonKeyOf f2.1 f2.2.1 ∧ f1.2.2 = f2.2.2

/-- First-match lookup of a field value by external key in a struct
value. -/
def findVal (k : String) : GoFields → Option GoValue
| .nil => none
| .cons n t v rest => if jsonKeyOf n t == k then some v else findVal k rest

/-- First-match lookup of a field type by external key in a struct
type. -/
def findType (k : String) : GoTypeFields → Option GoType
| .nil => none
| .cons n t ty rest => if jsonKeyOf n t == k then some ty else findType k rest

/-- The struct value a cast to the given destination type produces
from the fields of the source: shared keys pull the source value,
other destination fields stay zero. -/
def sharedPull (fs : GoFields) : GoTypeFields → GoFields
| .nil => .nil
| .cons n t ty rest =>
  .cons n t
    (match findVal (jsonKeyOf n t) fs with
    | some v => v
    | none => zeroOfType ty)
    (sharedPull fs rest)

/-- Pointwise correspondence between the marshalled entries of a
struct value and its fields: same external keys in order, each entry
the marshal of its field value, each decoding back to it at the
declared field type. -/
inductive EntriesCorr : List (String × Jsonv) → GoTypeFields → GoFields → Prop
| nil : EntriesCorr [] .nil .nil
| cons (n t : String) (ty : GoType) (j : Jsonv) (v : GoValue)
    (es : List (String × Jsonv)) (fts : GoTypeFields) (fs : GoFields)
    (hm : marshalValue v = .ok j) (hu : UnmOk ty j (.ok v))
    (rest : EntriesCorr es fts fs) :
    EntriesCorr ((jsonKeyOf n t, j) :: es) (.cons n t ty fts) (.cons n t v fs)

/-- Unfolding equation for fieldsToM on a cons cell, phrased through
the standalone fieldContribution. -/
theorem fieldsToM_cons (n t : String) (v : GoValue) (rest : GoFields) (data : JsonMap) :
    fieldsToM (.cons n t v rest) data =
      match fieldContribution n t v data with
      | .error e => .error e
      | .ok entries =>
        match fieldsToM rest data with
        | .error e => .error e
        | .ok es => .ok (entries ++ es) := by
  simp only [fieldsToM, fieldContribution]
  rfl

/-- Unfolding equation for structToM on a struct value. -/
theorem structToM_struct (fs : GoFields) :
    structToM (.vStruct fs) =
      match marshalValue (.vStruct fs) with
      | .error _ => .error .encodeFailed
      | .ok jsonSource =>
        match unmarshalToMap jsonSource with
        | .error _ => .error .decodeFailed
        | .ok data => fieldsToM fs data := by
  simp only [structToM]

mutual
/-- Every entry an ok run of structToM emits carries a value that does
not deep-equal the zero value of its shape. -/
theorem structToM_ok_nonzero (v : GoValue) (res : BsonM) (h : structToM v = .ok res) :
    ∀ kv ∈ res, deepEqual (zeroOf kv.2) kv.2 = false := by
  match v with
  | .vStruct fs =>
    rw [structToM_struct] at h
    split at h
    · exact absurd h (by simp)
    · split at h
      · exact absurd h (by simp)
      · exact fieldsToM_ok_nonzero fs _ res h
  | .vBool b => simp [structToM, unmarshalToMap, marshalValue] at h
  | .vInt n => simp [structToM, unmarshalToMap, marshalValue] at h
  | .vFloat q => simp [structToM, unmarshalToMap, marshalValue] at h
  | .vStr s => simp [structToM, unmarshalToMap, marshalValue] at h
  | .vPtrNil => simp [structToM, unmarshalToMap, marshalValue] at h
  | .vPtrTo w =>
    simp only [structToM] at h
    split at h
    · exact absurd h (by simp)
    · split at h
      · exact absurd h (by simp)
      · exact absurd h (by simp)
  | .vSliceNil => simp [structToM, unmarshalToMap, marshalValue] at h
  | .vSliceOf xs =>
    simp only [structToM] at h
    split at h
    · exact absurd h (by simp)
    · split at h
      · exact absurd h (by simp)
      · exact absurd h (by simp)
  | .vMapNil => simp [structToM, unmarshalToMap, marshalValue] at h
  | .vMapOf kvs =>
    simp only [structToM] at h
    split at h
    · exact absurd h (by simp)
    · split at h
      · exact absurd h (by simp)
      · exact absurd h (by simp)
  | .vChan => simp [structToM, marshalValue] at h
termination_by sizeOf v

/-- Every entry an ok run of the field loop emits carries a value that
does not deep-equal the zero value of its shape. -/
theorem fieldsToM_ok_nonzero (fs : GoFields) (data : JsonMap) (res : BsonM)
    (h : fieldsToM fs data = .ok res) :
    ∀ kv ∈ res, deepEqual (zeroOf kv.2) kv.2 = false := by
  match fs with
  | .nil =>
    simp [fieldsToM] at h
    subst h
    simp
  | .cons n t v rest =>
    rw [fieldsToM_cons] at h
    split at h
    · exact absurd h (by simp)
    · rename_i entries heq
      split at h
      · exact absurd h (by simp)
      · rename_i es heq2
        have hres : res = entries ++ es := by
          have := h
          simp at this
          exact this.symm
        subst hres
        intro kv hkv
        rcases List.mem_append.mp hkv with hl | hr
        · by_cases hk : hasKey data (jsonKeyOf n t)
          · by_cases hz : deepEqual (zeroOf v) v
            · simp [fieldContribution, hk, hz] at heq
              subst heq
              simp at hl
            · by_cases hs : isStructKind v
              · simp only [fieldContribution, hk, if_true, hz, if_false,
                  Bool.false_eq_true, hs] at heq
                split at heq
                · exact absurd heq (by simp)
                · rename_i valueMap hsub
                  have hent : entries = valueMap.map
                      (fun kv => (jsonKeyOf n t ++ "." ++ kv.1, kv.2)) := by
                    simp at heq
                    exact heq.symm
                  subst hent
                  rcases List.mem_map.mp hl with ⟨kv0, hkv0, hkveq⟩
                  have := structToM_ok_nonzero v valueMap hsub kv0 hkv0
                  rw [← hkveq]
                  simpa using this
              · simp [fieldContribution, hk, hz, hs] at heq
                subst heq
                simp at hl
                subst hl
                simpa using hz
          · simp [fieldContribution, hk] at heq
            subst heq
            simp at hl
        · exact fieldsToM_ok_nonzero rest data es heq2 kv hr
termination_by sizeOf fs
end

/-- A non-struct source never yields an ok result: the run ends in a
returned error or in the reflect panic. -/
theorem structToM_nonstruct_not_ok (v : GoValue) (hs : isStructKind v = false)
    (res : BsonM) : structToM v ≠ .ok res := by
  intro h
  cases v with
  | vStruct fs => simp [isStructKind] at hs
  | vBool b => simp [structToM, marshalValue, unmarshalToMap] at h
  | vInt n => simp [structToM, marshalValue, unmarshalToMap] at h
  | vFloat q => simp [structToM, marshalValue, unmarshalToMap] at h
  | vStr s => simp [structToM, marshalValue, unmarshalToMap] at h
  | vPtrNil => simp [structToM, marshalValue, unmarshalToMap] at h
  | vPtrTo w =>
    simp only [structToM] at h
    split at h
    · exact absurd h (by simp)
    · split at h
      · exact absurd h (by simp)
      · exact absurd h (by simp)
  | vSliceNil => simp [structToM, marshalValue, unmarshalToMap] at h
  | vSliceOf xs =>
    simp only [structToM] at h
    split at h
    · exact absurd h (by simp)
    · split at h
      · exact absurd h (by simp)
      · exact absurd h (by simp)
  | vMapNil => simp [structToM, marshalValue, unmarshalToMap] at h
  | vMapOf kvs =>
    simp only [structToM] at h
    split at h
    · exact absurd h (by simp)
    · split at h
      · exact absurd h (by simp)
      · exact absurd h (by simp)
  | vChan => simp [structToM, marshalValue] at h

/-- An ok run of structToM comes from a struct source, and its field
loop ran against the Serialized Intermediate Form of the source. -/
theorem structToM_ok_cases (v : GoValue) (res : BsonM) (h : structToM v = .ok res) :
    ∃ fs data, v = .vStruct fs ∧ intermediateMap v = .ok data ∧
      fieldsToM fs data = .ok res := by
  match v with
  | .vStruct fs =>
    rw [structToM_struct] at h
    split at h
    · exact absurd h (by simp)
    · rename_i j hm
      split at h
      · exact absurd h (by simp)
      · rename_i data hu
        exact ⟨fs, data, rfl, by simp [intermediateMap, hm, hu], h⟩
  | .vBool b => exact absurd h (structToM_nonstruct_not_ok _ (by rfl) res)
  | .vInt n => exact absurd h (structToM_nonstruct_not_ok _ (by rfl) res)
  | .vFloat q => exact absurd h (structToM_nonstruct_not_ok _ (by rfl) res)
  | .vStr s => exact absurd h (structToM_nonstruct_not_ok _ (by rfl) res)
  | .vPtrNil => exact absurd h (structToM_nonstruct_not_ok _ (by rfl) res)
  | .vPtrTo w => exact absurd h (structToM_nonstruct_not_ok _ (by rfl) res)
  | .vSliceNil => exact absurd h (structToM_nonstruct_not_ok _ (by rfl) res)
  | .vSliceOf xs => exact absurd h (structToM_nonstruct_not_ok _ (by rfl) res)
  | .vMapNil => exact absurd h (structToM_nonstruct_not_ok _ (by rfl) res)
  | .vMapOf kvs => exact absurd h (structToM_nonstruct_not_ok _ (by rfl) res)
  | .vChan => exact absurd h (structToM_nonstruct_not_ok _ (by rfl) res)

/-- C1: Zero-value elision: no entry of a projected mapping stores a
value that deep-equals the zero value of the field that produced it; a
field whose value deep-equals its zero value contributes nothing; the
Widget model with Price 0.0 projects to name and quantity only; the
all-zero model projects to the empty mapping. -/
theorem c1_zero_elision :
    (∀ (v : GoValue) (res : BsonM), structToM v = .ok res →
      ∀ kv ∈ res, deepEqual (zeroOf kv.2) kv.2 = false) ∧
    (∀ (n t : String) (v : GoValue) (data : JsonMap),
      deepEqual (zeroOf v) v = true → fieldContribution n t v data = .ok []) ∧
    structToM widget = .ok [("name", .vStr "Widget"), ("quantity", .vInt 5)] ∧
    structToM (zeroOf widget) = .ok [] := by
  refine ⟨structToM_ok_nonzero, ?_, ?_, ?_⟩
  · intro n t v data hz
    simp [fieldContribution, hz]
  · simp [widget, structToM, fieldsToM, marshalValue, marshalFields, jsonKeyOf, tagHead,
      tagParts, splitCommaAux, hasOmitempty, isEmptyValue, unmarshalToMap, hasKey,
      zeroOf, zeroFields, deepEqual, deepEqualFields, isStructKind]
  · simp [widget, structToM, fieldsToM, marshalValue, marshalFields, jsonKeyOf, tagHead,
      tagParts, splitCommaAux, hasOmitempty, isEmptyValue, unmarshalToMap, hasKey,
      zeroOf, zeroFields, deepEqual, deepEqualFields, isStructKind]

/-- Witness for C1 at concrete inputs. -/
theorem c1_zero_elision_witness :
    deepEqual (zeroOf ("name", GoValue.vStr "Widget").2) ("name", GoValue.vStr "Widget").2
      = false ∧
    fieldContribution "Price" "price" (.vFloat 0) (some [("price", .jnum 0)]) = .ok [] :=
  ⟨c1_zero_elision.1 widget [("name", .vStr "Widget"), ("quantity", .vInt 5)]
      c1_zero_elision.2.2.1 ("name", .vStr "Widget") (by simp),
   c1_zero_elision.2.1 "Price" "price" (.vFloat 0) (some [("price", .jnum 0)])
      (by simp [deepEqual, zeroOf])⟩

/-- C5: Determinism: structToM is a function of its input, so two runs
on the same model value give the same outcome. -/
theorem c5_determinism : ∀ (v : GoValue) (r1 r2 : Except Failure BsonM),
    structToM v = r1 → structToM v = r2 → r1 = r2 := by
  intro v r1 r2 h1 h2
  rw [← h1, ← h2]

/-- Witness for C5 at the Widget model. -/
theorem c5_determinism_witness :
    (Except.ok [("name", GoValue.vStr "Widget"), ("quantity", GoValue.vInt 5)] :
      Except Failure BsonM) = .ok [("name", .vStr "Widget"), ("quantity", .vInt 5)] :=
  c5_determinism widget _ _
    (by simp [widget, structToM, fieldsToM, marshalValue, marshalFields, jsonKeyOf, tagHead,
      tagParts, splitCommaAux, hasOmitempty, isEmptyValue, unmarshalToMap, hasKey,
      zeroOf, zeroFields, deepEqual, deepEqualFields, isStructKind])
    (by simp [widget, structToM, fieldsToM, marshalValue, marshalFields, jsonKeyOf, tagHead,
      tagParts, splitCommaAux, hasOmitempty, isEmptyValue, unmarshalToMap, hasKey,
      zeroOf, zeroFields, deepEqual, deepEqualFields, isStructKind])

/-- C2: Nested-record flattening: the contribution of a struct-kind
field is never a single entry under its own key; it is the recursive
projection of the nested struct re-keyed with dotted paths; and the
Address model of the spec scenario projects to exactly the dotted city
entry with the zero-valued Zip omitted. -/
theorem c2_nested_flattening :
    (∀ (n t : String) (gs : GoFields) (data : JsonMap) (res : BsonM),
      fieldContribution n t (.vStruct gs) data = .ok res →
      (res = [] ∨ ∃ sub, structToM (.vStruct gs) = .ok sub ∧
        res = sub.map (fun kv => (jsonKeyOf n t ++ "." ++ kv.1, kv.2))) ∧
      (∀ w, (jsonKeyOf n t, w) ∉ res)) ∧
    structToM rome = .ok [("address.city", .vStr "Rome")] := by
  constructor
  · intro n t gs data res heq
    by_cases hk : hasKey data (jsonKeyOf n t)
    · by_cases hz : deepEqual (zeroOf (.vStruct gs)) (.vStruct gs)
      · simp [fieldContribution, hk, hz] at heq
        subst heq
        simp
      · simp only [fieldContribution, hk, if_true, hz, Bool.false_eq_true, if_false,
          isStructKind] at heq
        split at heq
        · exact absurd heq (by simp)
        · rename_i valueMap hsub
          replace heq : valueMap.map (fun kv => (jsonKeyOf n t ++ "." ++ kv.1, kv.2)) = res := by
            simpa using heq
          subst heq
          constructor
          · exact Or.inr ⟨valueMap, hsub, rfl⟩
          · intro w hmem
            rcases List.mem_map.mp hmem with ⟨kv0, _, hkveq⟩
            have hlen := congrArg (fun s => s.1.length) hkveq
            simp [String.length_append] at hlen
            rw [show (".").length = 1 from rfl] at hlen
            omega
    · simp [fieldContribution, hk] at heq
      subst heq
      simp
  · simp [rome, structToM, fieldsToM, marshalValue, marshalFields, jsonKeyOf, tagHead,
      tagParts, splitCommaAux, hasOmitempty, isEmptyValue, unmarshalToMap, hasKey,
      zeroOf, zeroFields, deepEqual, deepEqualFields, isStructKind]

/-- Witness for C2 at the Address scenario. -/
theorem c2_nested_flattening_witness :
    ([("address.city", GoValue.vStr "Rome")] = [] ∨
      ∃ sub, structToM (.vStruct (.cons "City" "city" (.vStr "Rome")
          (.cons "Zip" "zip" (.vStr "") .nil))) = .ok sub ∧
        [("address.city", GoValue.vStr "Rome")] =
          sub.map (fun kv => (jsonKeyOf "Address" "address" ++ "." ++ kv.1, kv.2))) ∧
    (∀ w, (jsonKeyOf "Address" "address", w) ∉
      [("address.city", GoValue.vStr "Rome")]) :=
  c2_nested_flattening.1 "Address" "address"
    (.cons "City" "city" (.vStr "Rome") (.cons "Zip" "zip" (.vStr "") .nil))
    (some [("address", .jobj [("city", .jstr "Rome"), ("zip", .jstr "")])])
    [("address.city", GoValue.vStr "Rome")]
    (by simp [fieldContribution, structToM, fieldsToM, marshalValue, marshalFields, jsonKeyOf,
      tagHead, tagParts, splitCommaAux, hasOmitempty, isEmptyValue, unmarshalToMap, hasKey,
      zeroOf, zeroFields, deepEqual, deepEqualFields, isStructKind])

/-- Keys emitted by the field loop come from keys of the decoded map:
directly for leaf fields, or as a dotted extension for struct fields. -/
theorem fieldsToM_keys (fs : GoFields) (data : JsonMap) (res : BsonM)
    (h : fieldsToM fs data = .ok res) :
    ∀ kv ∈ res, ∃ k0, hasKey data k0 = true ∧
      (kv.1 = k0 ∨ ∃ ck, kv.1 = k0 ++ "." ++ ck) := by
  match fs with
  | .nil =>
    simp [fieldsToM] at h
    subst h
    simp
  | .cons n t v rest =>
    rw [fieldsToM_cons] at h
    split at h
    · exact absurd h (by simp)
    · rename_i entries heq
      split at h
      · exact absurd h (by simp)
      · rename_i es heq2
        replace h : entries ++ es = res := by simpa using h
        subst h
        intro kv hkv
        rcases List.mem_append.mp hkv with hl | hr
        · by_cases hk : hasKey data (jsonKeyOf n t)
          · by_cases hz : deepEqual (zeroOf v) v
            · simp [fieldContribution, hk, hz] at heq
              subst heq
              simp at hl
            · by_cases hs : isStructKind v
              · simp only [fieldContribution, hk, if_true, hz, Bool.false_eq_true, if_false,
                  hs] at heq
                split at heq
                · exact absurd heq (by simp)
                · rename_i valueMap hsub
                  replace heq : valueMap.map
                      (fun kv => (jsonKeyOf n t ++ "." ++ kv.1, kv.2)) = entries := by
                    simpa using heq
                  subst heq
                  rcases List.mem_map.mp hl with ⟨kv0, _, hkveq⟩
                  exact ⟨jsonKeyOf n t, hk, Or.inr ⟨kv0.1, by rw [← hkveq]⟩⟩
              · simp [fieldContribution, hk, hz, hs] at heq
                subst heq
                simp at hl
                subst hl
                exact ⟨jsonKeyOf n t, hk, Or.inl rfl⟩
          · simp [fieldContribution, hk] at heq
            subst heq
            simp at hl
        · exact fieldsToM_keys rest data es heq2 kv hr
termination_by sizeOf fs

/-- C3 counterexample: the Address scenario projects to the dotted key
address.city, which is not itself a key of the Serialized Intermediate
Form of the model (only address is). -/
theorem c3_intermediate_membership_cex :
    structToM rome = .ok [("address.city", .vStr "Rome")] ∧
    intermediateMap rome =
      .ok (some [("address", .jobj [("city", .jstr "Rome"), ("zip", .jstr "")])]) ∧
    hasKey (some [("address", .jobj [("city", .jstr "Rome"), ("zip", .jstr "")])])
      "address.city" = false := by
  refine ⟨?_, ?_, ?_⟩
  · simp [rome, structToM, fieldsToM, marshalValue, marshalFields, jsonKeyOf, tagHead,
      tagParts, splitCommaAux, hasOmitempty, isEmptyValue, unmarshalToMap, hasKey,
      zeroOf, zeroFields, deepEqual, deepEqualFields, isStructKind]
  · simp [rome, intermediateMap, marshalValue, marshalFields, jsonKeyOf, tagHead,
      tagParts, splitCommaAux, hasOmitempty, isEmptyValue, unmarshalToMap]
  · simp [hasKey]

/-- C3 as amended: every key of the projected mapping either is itself
a key of the Serialized Intermediate Form or extends such a key (the
external key of the struct field that produced it) by a dotted path;
and a field whose external key is absent from the form contributes
nothing. -/
theorem c3_intermediate_membership :
    (∀ (v : GoValue) (res : BsonM) (data : JsonMap),
      structToM v = .ok res → intermediateMap v = .ok data →
      ∀ kv ∈ res, ∃ k0, hasKey data k0 = true ∧
        (kv.1 = k0 ∨ ∃ ck, kv.1 = k0 ++ "." ++ ck)) ∧
    (∀ (n t : String) (v : GoValue) (data : JsonMap),
      hasKey data (jsonKeyOf n t) = false → fieldContribution n t v data = .ok []) := by
  constructor
  · intro v res data h him
    rcases structToM_ok_cases v res h with ⟨fs, data0, hv, him0, hfl⟩
    rw [him0] at him
    have : data0 = data := by simpa using him
    subst this
    exact fieldsToM_keys fs data0 res hfl
  · intro n t v data hk
    simp [fieldContribution, hk]

/-- Witness for the amended C3 at the Address scenario. -/
theorem c3_intermediate_membership_witness :
    ∃ k0, hasKey (some [("address", .jobj [("city", .jstr "Rome"), ("zip", .jstr "")])])
        k0 = true ∧
      (("address.city", GoValue.vStr "Rome").1 = k0 ∨
        ∃ ck, ("address.city", GoValue.vStr "Rome").1 = k0 ++ "." ++ ck) :=
  c3_intermediate_membership.1 rome [("address.city", .vStr "Rome")]
    (some [("address", .jobj [("city", .jstr "Rome"), ("zip", .jstr "")])])
    (by simp [rome, structToM, fieldsToM, marshalValue, marshalFields, jsonKeyOf, tagHead,
      tagParts, splitCommaAux, hasOmitempty, isEmptyValue, unmarshalToMap, hasKey,
      zeroOf, zeroFields, deepEqual, deepEqualFields, isStructKind])
    (by simp [rome, intermediateMap, marshalValue, marshalFields, jsonKeyOf, tagHead,
      tagParts, splitCommaAux, hasOmitempty, isEmptyValue, unmarshalToMap])
    ("address.city", .vStr "Rome") (by simp)

/-- C7: External key resolution: every entry a non-struct field
contributes is stored under the tag name before the first comma, else
the Go field name; every entry any field contributes has that key as a
prefix; the tag name,omitempty resolves to name; an empty tag resolves
to the field name. -/
theorem c7_key_resolution :
    (∀ (n t : String) (v : GoValue) (data : JsonMap) (res : BsonM),
      isStructKind v = false → fieldContribution n t v data = .ok res →
      ∀ kv ∈ res, kv.1 = jsonKeyOf n t) ∧
    (∀ (n t : String) (v : GoValue) (data : JsonMap) (res : BsonM),
      fieldContribution n t v data = .ok res →
      ∀ kv ∈ res, ∃ suffix, kv.1 = jsonKeyOf n t ++ suffix) ∧
    jsonKeyOf "Name" "name,omitempty" = "name" ∧
    (∀ n : String, jsonKeyOf n "" = n) := by
  refine ⟨?_, ?_, ?_, ?_⟩
  · intro n t v data res hs heq
    by_cases hk : hasKey data (jsonKeyOf n t)
    · by_cases hz : deepEqual (zeroOf v) v
      · simp [fieldContribution, hk, hz] at heq
        subst heq
        simp
      · simp [fieldContribution, hk, hz, hs] at heq
        subst heq
        intro kv hkv
        simp at hkv
        subst hkv
        rfl
    · simp [fieldContribution, hk] at heq
      subst heq
      simp
  · intro n t v data res heq
    by_cases hk : hasKey data (jsonKeyOf n t)
    · by_cases hz : deepEqual (zeroOf v) v
      · simp [fieldContribution, hk, hz] at heq
        subst heq
        simp
      · by_cases hs : isStructKind v
        · simp only [fieldContribution, hk, if_true, hz, Bool.false_eq_true, if_false,
            hs] at heq
          split at heq
          · exact absurd heq (by simp)
          · rename_i valueMap hsub
            replace heq : valueMap.map
                (fun kv => (jsonKeyOf n t ++ "." ++ kv.1, kv.2)) = res := by
              simpa using heq
            subst heq
            intro kv hkv
            rcases List.mem_map.mp hkv with ⟨kv0, _, hkveq⟩
            exact ⟨"." ++ kv0.1, by rw [← hkveq]; simp [String.append_assoc]⟩
        · simp [fieldContribution, hk, hz, hs] at heq
          subst heq
          intro kv hkv
          simp at hkv
          subst hkv
          exact ⟨"", by simp⟩
    · simp [fieldContribution, hk] at heq
      subst heq
      simp
  · simp [jsonKeyOf, tagHead, tagParts, splitCommaAux]
  · intro n
    simp [jsonKeyOf, tagHead, tagParts, splitCommaAux]

/-- Witness for C7 at concrete fields. -/
theorem c7_key_resolution_witness :
    (("quantity", GoValue.vInt 5).1 = jsonKeyOf "Quantity" "quantity") ∧
    jsonKeyOf "Quantity" "" = "Quantity" :=
  ⟨c7_key_resolution.1 "Quantity" "quantity" (.vInt 5)
      (some [("quantity", .jnum 5)]) [("quantity", .vInt 5)] (by rfl)
      (by simp [fieldContribution, jsonKeyOf, tagHead, tagParts, splitCommaAux, hasKey,
        zeroOf, deepEqual, isStructKind])
      ("quantity", .vInt 5) (by simp),
   c7_key_resolution.2.2.2 "Quantity"⟩

/-- C9 as amended: a non-struct source whose JSON encoding succeeds
and whose decoding into the generic mapping succeeds makes the
reflective field iteration panic; a slice, however, decodes into a
generic list rather than a mapping, so it returns the decode error
instead of panicking. -/
theorem c9_nonstruct_panic :
    ∀ (v : GoValue) (j : Jsonv) (data : JsonMap),
      isStructKind v = false → marshalValue v = .ok j → unmarshalToMap j = .ok data →
      structToM v = .error .panicked := by
  intro v j data hs hm hu
  cases v <;> simp_all [structToM, isStructKind]

/-- C9 counterexample: a non-nil slice value marshals to a JSON array,
whose decoding into the generic mapping fails, so StructToM returns
the decode error rather than panicking. -/
theorem c9_nonstruct_panic_cex :
    structToM (.vSliceOf (.cons (.vInt 1) .nil)) = .error .decodeFailed ∧
    (Failure.decodeFailed ≠ Failure.panicked) := by
  constructor
  · simp [structToM, marshalValue, marshalElems, unmarshalToMap]
  · intro hcon
    exact Failure.noConfusion hcon

/-- Witness for the amended C9: a pointer to a struct and a nil map
both survive encode and decode and then panic. -/
theorem c9_nonstruct_panic_witness :
    structToM (.vPtrTo (.vStruct .nil)) = .error .panicked ∧
    structToM .vMapNil = .error .panicked :=
  ⟨c9_nonstruct_panic (.vPtrTo (.vStruct .nil)) (.jobj []) (some [])
      (by rfl) (by simp [marshalValue, marshalFields]) (by rfl),
   c9_nonstruct_panic .vMapNil .jnull none
      (by rfl) (by simp [marshalValue]) (by rfl)⟩

/-- C10: Pointer fields are not flattened: a non-nil pointer field
whose key is present in the decoded map is stored whole as a single
entry under its external key; the zero value of a pointer shape is the
nil pointer; a nil pointer field contributes nothing. -/
theorem c10_pointer_fields :
    (∀ (n t : String) (w : GoValue) (data : JsonMap),
      hasKey data (jsonKeyOf n t) = true →
      fieldContribution n t (.vPtrTo w) data = .ok [(jsonKeyOf n t, .vPtrTo w)]) ∧
    (∀ w : GoValue, zeroOf (.vPtrTo w) = .vPtrNil) ∧
    (∀ (n t : String) (data : JsonMap), fieldContribution n t .vPtrNil data = .ok []) := by
  refine ⟨?_, ?_, ?_⟩
  · intro n t w data hk
    simp [fieldContribution, hk, zeroOf, deepEqual, isStructKind]
  · intro w
    simp [zeroOf]
  · intro n t data
    simp [fieldContribution, zeroOf, deepEqual]

/-- Witness for C10 at a concrete pointer field. -/
theorem c10_pointer_fields_witness :
    fieldContribution "ID" "id" (.vPtrTo (.vInt 7)) (some [("id", .jnum 7)])
      = .ok [(jsonKeyOf "ID" "id", .vPtrTo (.vInt 7))] :=
  c10_pointer_fields.1 "ID" "id" (.vInt 7) (some [("id", .jnum 7)])
    (by simp [hasKey, jsonKeyOf, tagHead, tagParts, splitCommaAux])

/-- The nest chain marshals to the corresponding JSON chain. -/
theorem marshal_nest : ∀ m, marshalValue (nest m) = .ok (jnest m) := by
  intro m
  induction m with
  | zero => simp [nest, jnest, marshalValue]
  | succ k ih =>
    simp [nest, jnest, marshalValue, marshalFields, jsonKeyOf, tagHead, tagParts,
      splitCommaAux, hasOmitempty, isEmptyValue, ih]

/-- The nest chain never deep-equals the zero value of its shape. -/
theorem nest_nonzero : ∀ m, deepEqual (zeroOf (nest m)) (nest m) = false := by
  intro m
  induction m with
  | zero => with_unfolding_all rfl
  | succ k ih => simp [nest, zeroOf, zeroFields, deepEqual, deepEqualFields, ih]

/-- Projecting the nest chain of any positive depth succeeds and
yields the single dotted key with the bottom string. -/
theorem structToM_nest : ∀ m, structToM (nest (m + 1)) = .ok [(nestKey m, .vStr "x")] := by
  intro m
  induction m with
  | zero =>
    simp [nest, nestKey, structToM, fieldsToM, marshalValue, marshalFields, jsonKeyOf,
      tagHead, tagParts, splitCommaAux, hasOmitempty, isEmptyValue, unmarshalToMap, hasKey,
      zeroOf, zeroFields, deepEqual, deepEqualFields, isStructKind]
  | succ k ih =>
    have hval : nest (k + 1 + 1) = .vStruct (.cons "F" "f" (nest (k + 1)) .nil) := rfl
    have hm : marshalValue (.vStruct (.cons "F" "f" (nest (k + 1)) .nil))
        = .ok (.jobj [("f", jnest (k + 1))]) := by
      have h2 := marshal_nest (k + 1 + 1)
      rw [hval] at h2
      exact h2
    rw [hval, structToM_struct, hm]
    simp only [unmarshalToMap]
    rw [fieldsToM_cons]
    have hsk : isStructKind (nest (k + 1)) = true := rfl
    have hc : fieldContribution "F" "f" (nest (k + 1)) (some [("f", jnest (k + 1))])
        = .ok [("f" ++ "." ++ nestKey k, .vStr "x")] := by
      simp [fieldContribution, hasKey, jsonKeyOf, tagHead, tagParts, splitCommaAux,
        nest_nonzero (k + 1), hsk, ih]
    rw [hc]
    simp only [fieldsToM, nestKey]
    simp

/-- The nest chain has the advertised struct-nesting depth. -/
theorem nest_depth : ∀ m, structDepth (nest (m + 1)) = m + 1 := by
  intro m
  induction m with
  | zero => rfl
  | succ k ih =>
    have : structDepth (nest (k + 1 + 1))
        = 1 + max (structDepth (nest (k + 1))) 0 := rfl
    rw [this, ih, Nat.max_zero]
    omega

/-- Every value of the embedding has positive size. -/
theorem goValue_sizeOf_pos (v : GoValue) : 0 < sizeOf v := by
  cases v <;> simp_arith

mutual
/-- With fuel at least the size of the source, the fuelled run of
StructToM completes and agrees with structToM. -/
theorem structToMFuel_eq (fuel : Nat) (v : GoValue) (hf : sizeOf v ≤ fuel) :
    structToMFuel fuel v = some (structToM v) := by
  match fuel, v with
  | 0, v => exact absurd hf (by have := goValue_sizeOf_pos v; omega)
  | fuel + 1, .vStruct fields =>
    simp only [structToMFuel, structToM]
    cases hm : marshalValue (.vStruct fields) with
    | error e => rfl
    | ok j =>
      dsimp only
      cases hu : unmarshalToMap j with
      | error e => rfl
      | ok data =>
        dsimp only
        have hfs : sizeOf fields ≤ fuel := by
          have := hf
          simp_arith at this
          omega
        exact fieldsToMFuel_eq fuel fields data hfs
  | fuel + 1, .vBool b => simp [structToMFuel, structToM, marshalValue, unmarshalToMap]
  | fuel + 1, .vInt n => simp [structToMFuel, structToM, marshalValue, unmarshalToMap]
  | fuel + 1, .vFloat q => simp [structToMFuel, structToM, marshalValue, unmarshalToMap]
  | fuel + 1, .vStr s => simp [structToMFuel, structToM, marshalValue, unmarshalToMap]
  | fuel + 1, .vPtrNil => simp [structToMFuel, structToM, marshalValue, unmarshalToMap]
  | fuel + 1, .vPtrTo w =>
    simp only [structToMFuel, structToM]
    cases hm : marshalValue (.vPtrTo w) with
    | error e => rfl
    | ok j =>
      dsimp only
      cases hu : unmarshalToMap j with
      | error e => rfl
      | ok data => rfl
  | fuel + 1, .vSliceNil => simp [structToMFuel, structToM, marshalValue, unmarshalToMap]
  | fuel + 1, .vSliceOf xs =>
    simp only [structToMFuel, structToM]
    cases hm : marshalValue (.vSliceOf xs) with
    | error e => rfl
    | ok j =>
      dsimp only
      cases hu : unmarshalToMap j with
      | error e => rfl
      | ok data => rfl
  | fuel + 1, .vMapNil => simp [structToMFuel, structToM, marshalValue, unmarshalToMap]
  | fuel + 1, .vMapOf kvs =>
    simp only [structToMFuel, structToM]
    cases hm : marshalValue (.vMapOf kvs) with
    | error e => rfl
    | ok j =>
      dsimp only
      cases hu : unmarshalToMap j with
      | error e => rfl
      | ok data => rfl
  | fuel + 1, .vChan => simp [structToMFuel, structToM, marshalValue]
termination_by (fuel, sizeOf v)

/-- With fuel at least the size of the field sequence, the fuelled
field loop completes and agrees with fieldsToM. -/
theorem fieldsToMFuel_eq (fuel : Nat) (fs : GoFields) (data : JsonMap)
    (hf : sizeOf fs ≤ fuel) :
    fieldsToMFuel fuel fs data = some (fieldsToM fs data) := by
  match fs with
  | .nil => simp [fieldsToMFuel, fieldsToM]
  | .cons n t v rest =>
    have hrest : sizeOf rest ≤ fuel := by
      have := hf
      simp_arith at this
      omega
    have hv : sizeOf v ≤ fuel := by
      have := hf
      simp_arith at this
      omega
    have hrec := fieldsToMFuel_eq fuel rest data hrest
    have hstruct := structToMFuel_eq fuel v hv
    simp only [fieldsToMFuel]
    rw [fieldsToM_cons]
    simp only [fieldContribution]
    by_cases hk : hasKey data (jsonKeyOf n t) = true
    · rw [if_pos hk, if_pos hk]
      by_cases hz : deepEqual (zeroOf v) v = true
      · rw [if_pos hz, if_pos hz]
        dsimp only
        rw [hrec]
        cases fieldsToM rest data <;> rfl
      · rw [if_neg hz, if_neg hz]
        by_cases hs : isStructKind v = true
        · rw [if_pos hs, if_pos hs]
          rw [hstruct]
          cases structToM v with
          | error e => rfl
          | ok valueMap =>
            dsimp only
            rw [hrec]
            cases fieldsToM rest data <;> rfl
        · rw [if_neg hs, if_neg hs]
          dsimp only
          rw [hrec]
          cases fieldsToM rest data <;> rfl
    · rw [if_neg hk, if_neg hk]
      dsimp only
      rw [hrec]
      cases fieldsToM rest data <;> rfl
termination_by (fuel, sizeOf fs)
end

/-- C8 counterexample: no value makes the fuelled recursion run out at
every fuel bound: the recursion of StructToM always terminates, since
record values are finite trees and by-value record types cannot be
self-referential. -/
theorem c8_recursion_depth_cex :
    ¬ ∃ v : GoValue, ∀ fuel, structToMFuel fuel v = none := by
  rintro ⟨v, h⟩
  have h1 := h (sizeOf v)
  have h2 := structToMFuel_eq (sizeOf v) v (Nat.le_refl _)
  rw [h1] at h2
  exact Option.noConfusion h2

/-- C8 as amended: the recursion has no depth limit and no recursion
guard: models of every nesting depth project successfully rather than
failing at some maximum depth; and the recursion always terminates,
with fuel bounded by the size of the (finite) value. -/
theorem c8_recursion_depth :
    (∀ n : Nat, ∃ (v : GoValue) (k : String), n ≤ structDepth v ∧
      structToM v = .ok [(k, .vStr "x")]) ∧
    (∀ (v : GoValue) (fuel : Nat), sizeOf v ≤ fuel →
      structToMFuel fuel v = some (structToM v)) := by
  constructor
  · intro n
    refine ⟨nest (n + 1), nestKey n, ?_, structToM_nest n⟩
    rw [nest_depth]
    omega
  · intro v fuel hf
    exact structToMFuel_eq fuel v hf

/-- Witness for the amended C8 at depth three and at a small value. -/
theorem c8_recursion_depth_witness :
    (∃ (v : GoValue) (k : String), 3 ≤ structDepth v ∧
      structToM v = .ok [(k, .vStr "x")]) ∧
    structToMFuel 100 .vPtrNil = some (structToM .vPtrNil) :=
  ⟨c8_recursion_depth.1 3, c8_recursion_depth.2 .vPtrNil 100 (by decide)⟩

mutual
/-- A struct source never makes StructToM panic: its failures are the
returned encode and decode errors only. -/
theorem structToM_struct_no_panic (fs : GoFields) :
    structToM (.vStruct fs) ≠ .error .panicked := by
  rw [structToM_struct]
  split
  · simp
  · split
    · simp
    · exact fieldsToM_no_panic fs _
termination_by sizeOf fs + 1

/-- The field loop never reports the panic outcome: its only errors
are those bubbled up from recursive projections. -/
theorem fieldsToM_no_panic (fs : GoFields) (data : JsonMap) :
    fieldsToM fs data ≠ .error .panicked := by
  match fs with
  | .nil => simp [fieldsToM]
  | .cons n t v rest =>
    rw [fieldsToM_cons]
    intro h
    split at h
    · rename_i e heq
      replace h : e = .panicked := by simpa using h
      subst h
      by_cases hk : hasKey data (jsonKeyOf n t) = true
      · by_cases hz : deepEqual (zeroOf v) v = true
        · simp [fieldContribution, hk, hz] at heq
        · by_cases hs : isStructKind v = true
          · simp only [fieldContribution, hk, if_true, hz, Bool.false_eq_true, if_false,
              hs] at heq
            split at heq
            · rename_i e2 hsub
              replace heq : e2 = .panicked := by simpa using heq
              subst heq
              cases v with
              | vStruct gs => exact structToM_struct_no_panic gs hsub
              | vBool b => simp [isStructKind] at hs
              | vInt n2 => simp [isStructKind] at hs
              | vFloat q => simp [isStructKind] at hs
              | vStr s2 => simp [isStructKind] at hs
              | vPtrNil => simp [isStructKind] at hs
              | vPtrTo w => simp [isStructKind] at hs
              | vSliceNil => simp [isStructKind] at hs
              | vSliceOf xs => simp [isStructKind] at hs
              | vMapNil => simp [isStructKind] at hs
              | vMapOf kvs => simp [isStructKind] at hs
              | vChan => simp [isStructKind] at hs
            · simp at heq
          · simp [fieldContribution, hk, hz, hs] at heq
      · simp [fieldContribution, hk] at heq
    · rename_i entries heq
      split at h
      · rename_i e heq2
        replace h : e = .panicked := by simpa using h
        subst h
        exact fieldsToM_no_panic rest data heq2
      · simp at h
termination_by sizeOf fs
end

/-- C4 as amended: for struct sources the failures of StructToM are
exactly the two json error classes, an encode error when json.Marshal
fails and a decode error when json.Unmarshal into the generic mapping
fails, each returned directly; the panic outcome never occurs for a
struct source. -/
theorem c4_error_conditions :
    (∀ (fs : GoFields) (e : Failure), structToM (.vStruct fs) = .error e →
      e = .encodeFailed ∨ e = .decodeFailed) ∧
    (∀ v : GoValue, marshalValue v = .error () → structToM v = .error .encodeFailed) ∧
    (∀ (v : GoValue) (j : Jsonv), marshalValue v = .ok j → unmarshalToMap j = .error () →
      structToM v = .error .decodeFailed) := by
  refine ⟨?_, ?_, ?_⟩
  · intro fs e h
    cases e with
    | encodeFailed => exact Or.inl rfl
    | decodeFailed => exact Or.inr rfl
    | panicked => exact absurd h (structToM_struct_no_panic fs)
  · intro v hm
    cases v <;> simp_all [structToM]
  · intro v j hm hu
    cases v <;> simp_all [structToM]

/-- C4 counterexample: a pointer to a struct encodes and decodes
successfully yet StructToM still fails, with the reflect panic, so
encode and decode failures are not the only failure modes over
arbitrary inputs. -/
theorem c4_error_conditions_cex :
    structToM (.vPtrTo (.vStruct .nil)) = .error .panicked ∧
    marshalValue (.vPtrTo (.vStruct .nil)) = .ok (.jobj []) ∧
    unmarshalToMap (.jobj []) = .ok (some []) ∧
    Failure.panicked ≠ .encodeFailed ∧ Failure.panicked ≠ .decodeFailed := by
  refine ⟨?_, ?_, ?_, ?_, ?_⟩
  · simp [structToM, marshalValue, marshalFields, unmarshalToMap]
  · simp [marshalValue, marshalFields]
  · simp [unmarshalToMap]
  · intro h
    exact Failure.noConfusion h
  · intro h
    exact Failure.noConfusion h

/-- Witness for the amended C4 at concrete failing models. -/
theorem c4_error_conditions_witness :
    (Failure.encodeFailed = .encodeFailed ∨ Failure.encodeFailed = .decodeFailed) ∧
    structToM .vChan = .error .encodeFailed ∧
    structToM (.vInt 3) = .error .decodeFailed :=
  ⟨c4_error_conditions.1 (.cons "C" "" .vChan .nil) .encodeFailed
      (by simp [structToM, marshalValue, marshalFields, jsonKeyOf, tagHead, tagParts,
        splitCommaAux, hasOmitempty, isEmptyValue]),
   c4_error_conditions.2.1 .vChan (by simp [marshalValue]),
   c4_error_conditions.2.2 (.vInt 3) (.jnum 3) (by simp [marshalValue])
     (by simp [unmarshalToMap])⟩

/-- Every JSON document has positive node count. -/
theorem jsonvSize_pos (j : Jsonv) : 1 ≤ jsonvSize j := by
  cases j <;> simp_arith [jsonvSize]

/-- Every JSON entry list has positive node count. -/
theorem jsonvObjSize_pos (es : List (String × Jsonv)) : 1 ≤ jsonvObjSize es := by
  match es with
  | [] => simp [jsonvObjSize]
  | (k, j) :: rest => simp_arith [jsonvObjSize]

/-- Every JSON element list has positive node count. -/
theorem jsonvListSize_pos (js : List Jsonv) : 1 ≤ jsonvListSize js := by
  match js with
  | [] => simp [jsonvListSize]
  | j :: rest => simp_arith [jsonvListSize]

/-- Every type has positive node count. -/
theorem goTypeSize_pos (ty : GoType) : 1 ≤ goTypeSize ty := by
  cases ty <;> simp_arith [goTypeSize]

/-- Every type field list has positive node count. -/
theorem goTypeFieldsSize_pos (fts : GoTypeFields) : 1 ≤ goTypeFieldsSize fts := by
  cases fts <;> simp_arith [goTypeFieldsSize]

/-- A member value of an entry list is smaller than the list. -/
theorem mem_objSize {k : String} {j : Jsonv} {es : List (String × Jsonv)}
    (h : (k, j) ∈ es) : jsonvSize j < jsonvObjSize es := by
  match es with
  | [] => simp at h
  | (k2, j2) :: rest =>
    rcases List.mem_cons.mp h with heq | hmem
    · injection heq with h1 h2
      subst h2
      simp_arith [jsonvObjSize]
    · have := mem_objSize hmem
      simp_arith [jsonvObjSize]
      have := jsonvSize_pos j2
      omega

/-- An exact lookup hit is a member value. -/
theorem lookupExactLast_mem {k : String} {es : List (String × Jsonv)} {j : Jsonv}
    (h : lookupExactLast k es = some j) : ∃ k2, (k2, j) ∈ es := by
  match es with
  | [] => simp [lookupExactLast] at h
  | (k2, j2) :: rest =>
    simp only [lookupExactLast] at h
    split at h
    · rename_i r hr
      replace h : r = j := by simpa using h
      subst h
      rcases lookupExactLast_mem hr with ⟨k3, hm⟩
      exact ⟨k3, List.mem_cons_of_mem _ hm⟩
    · split at h
      · replace h : j2 = j := by simpa using h
        subst h
        exact ⟨k2, List.mem_cons_self _ _⟩
      · simp at h

/-- A case-insensitive lookup hit is a member value, with a key that
lower-cases to the probe. -/
theorem lookupFoldLast_mem {k : String} {es : List (String × Jsonv)} {j : Jsonv}
    (h : lookupFoldLast k es = some j) :
    ∃ k2, (k2, j) ∈ es ∧ lowerStr k2 = lowerStr k := by
  match es with
  | [] => simp [lookupFoldLast] at h
  | (k2, j2) :: rest =>
    simp only [lookupFoldLast] at h
    split at h
    · rename_i r hr
      replace h : r = j := by simpa using h
      subst h
      rcases lookupFoldLast_mem hr with ⟨k3, hm, hl⟩
      exact ⟨k3, List.mem_cons_of_mem _ hm, hl⟩
    · split at h
      · rename_i hlow
        replace h : j2 = j := by simpa using h
        subst h
        exact ⟨k2, List.mem_cons_self _ _, by simpa using hlow⟩
      · simp at h

/-- A field-matching lookup hit is a member value. -/
theorem lookupKey_mem {k : String} {es : List (String × Jsonv)} {j : Jsonv}
    (h : lookupKey k es = some j) : ∃ k2, (k2, j) ∈ es := by
  simp only [lookupKey] at h
  split at h
  · rename_i j2 hr
    replace h : j2 = j := by simpa using h
    subst h
    exact lookupExactLast_mem hr
  · rcases lookupFoldLast_mem h with ⟨k2, hm, _⟩
    exact ⟨k2, hm⟩

mutual
/-- Marshalling never enlarges the node count. -/
theorem marshal_size (v : GoValue) (j : Jsonv) (h : marshalValue v = .ok j) :
    jsonvSize j ≤ goValueSize v := by
  match v with
  | .vBool b =>
    replace h : Jsonv.jbool b = j := by simpa [marshalValue] using h
    subst h
    simp [jsonvSize, goValueSize]
  | .vInt n =>
    replace h : Jsonv.jnum n = j := by simpa [marshalValue] using h
    subst h
    simp [jsonvSize, goValueSize]
  | .vFloat q =>
    replace h : Jsonv.jnum q = j := by simpa [marshalValue] using h
    subst h
    simp [jsonvSize, goValueSize]
  | .vStr s =>
    replace h : Jsonv.jstr s = j := by simpa [marshalValue] using h
    subst h
    simp [jsonvSize, goValueSize]
  | .vStruct fs =>
    simp only [marshalValue] at h
    split at h
    · simp at h
    · rename_i entries heq
      replace h : Jsonv.jobj entries = j := by simpa using h
      subst h
      have := marshalFields_size fs entries heq
      simp_arith [jsonvSize, goValueSize]
      omega
  | .vPtrNil =>
    replace h : Jsonv.jnull = j := by simpa [marshalValue] using h
    subst h
    simp [jsonvSize, goValueSize]
  | .vPtrTo w =>
    simp only [marshalValue] at h
    have := marshal_size w j h
    simp_arith [goValueSize]
    omega
  | .vSliceNil =>
    replace h : Jsonv.jnull = j := by simpa [marshalValue] using h
    subst h
    simp [jsonvSize, goValueSize]
  | .vSliceOf xs =>
    simp only [marshalValue] at h
    split at h
    · simp at h
    · rename_i js heq
      replace h : Jsonv.jarr js = j := by simpa using h
      subst h
      have := marshalElems_size xs js heq
      simp_arith [jsonvSize, goValueSize]
      omega
  | .vMapNil =>
    replace h : Jsonv.jnull = j := by simpa [marshalValue] using h
    subst h
    simp [jsonvSize, goValueSize]
  | .vMapOf kvs =>
    simp only [marshalValue] at h
    split at h
    · simp at h
    · rename_i es heq
      replace h : Jsonv.jobj es = j := by simpa using h
      subst h
      have := marshalKvs_size kvs es heq
      simp_arith [jsonvSize, goValueSize]
      omega
  | .vChan => simp [marshalValue] at h
termination_by sizeOf v

/-- Marshalling a field sequence never enlarges the node count. -/
theorem marshalFields_size (fs : GoFields) (entries : List (String × Jsonv))
    (h : marshalFields fs = .ok entries) : jsonvObjSize entries ≤ goFieldsSize fs := by
  match fs with
  | .nil =>
    replace h : [] = entries := by simpa [marshalFields] using h
    subst h
    simp [jsonvObjSize, goFieldsSize]
  | .cons n t v rest =>
    simp only [marshalFields] at h
    split at h
    · have := marshalFields_size rest entries h
      simp_arith [goFieldsSize]
      have := goValueSize_ge_one v
      omega
    · split at h
      · have := marshalFields_size rest entries h
        simp_arith [goFieldsSize]
        have := goValueSize_ge_one v
        omega
      · split at h
        · simp at h
        · rename_i j hj
          split at h
          · simp at h
          · rename_i es hes
            replace h : (jsonKeyOf n t, j) :: es = entries := by simpa using h
            subst h
            have h1 := marshal_size v j hj
            have h2 := marshalFields_size rest es hes
            simp_arith [jsonvObjSize, goFieldsSize]
            omega
termination_by sizeOf fs

/-- Marshalling slice elements never enlarges the node count. -/
theorem marshalElems_size (xs : GoValues) (js : List Jsonv)
    (h : marshalElems xs = .ok js) : jsonvListSize js ≤ goValuesSize xs := by
  match xs with
  | .nil =>
    replace h : [] = js := by simpa [marshalElems] using h
    subst h
    simp [jsonvListSize, goValuesSize]
  | .cons v rest =>
    simp only [marshalElems] at h
    split at h
    · simp at h
    · rename_i j hj
      split at h
      · simp at h
      · rename_i js2 hjs
        replace h : j :: js2 = js := by simpa using h
        subst h
        have h1 := marshal_size v j hj
        have h2 := marshalElems_size rest js2 hjs
        simp_arith [jsonvListSize, goValuesSize]
        omega
termination_by sizeOf xs

/-- Marshalling map entries never enlarges the node count. -/
theorem marshalKvs_size (kvs : GoKvs) (es : List (String × Jsonv))
    (h : marshalKvs kvs = .ok es) : jsonvObjSize es ≤ goKvsSize kvs := by
  match kvs with
  | .nil =>
    replace h : [] = es := by simpa [marshalKvs] using h
    subst h
    simp [jsonvObjSize, goKvsSize]
  | .cons k v rest =>
    simp only [marshalKvs] at h
    split at h
    · simp at h
    · rename_i j hj
      split at h
      · simp at h
      · rename_i es2 hes
        replace h : (k, j) :: es2 = es := by simpa using h
        subst h
        have h1 := marshal_size v j hj
        have h2 := marshalKvs_size rest es2 hes
        simp_arith [jsonvObjSize, goKvsSize]
        omega
termination_by sizeOf kvs

/-- Every value has positive node count. -/
theorem goValueSize_ge_one (v : GoValue) : 1 ≤ goValueSize v := by
  cases v <;> simp_arith [goValueSize]
end

/-- Decoding the JSON literal null leaves the destination zero. -/
theorem unm_null (ty : GoType) : UnmOk ty .jnull (.ok (zeroOfType ty)) := by
  intro fuel hf
  obtain ⟨g, rfl⟩ : ∃ g, fuel = g + 1 := by
    have h1 := goTypeSize_pos ty
    exact ⟨fuel - 1, by simp_arith [jsonvSize] at hf; omega⟩
  cases ty <;> simp [unmarshalF]

/-- Decoding a JSON bool into a bool destination. -/
theorem unm_bool (b : Bool) : UnmOk .tBool (.jbool b) (.ok (.vBool b)) := by
  intro fuel hf
  obtain ⟨g, rfl⟩ : ∃ g, fuel = g + 1 :=
    ⟨fuel - 1, by simp_arith [jsonvSize, goTypeSize] at hf; omega⟩
  simp [unmarshalF]

/-- Decoding an integral JSON number into an int destination. -/
theorem unm_int (n : Int) : UnmOk .tInt (.jnum (n : Rat)) (.ok (.vInt n)) := by
  intro fuel hf
  obtain ⟨g, rfl⟩ : ∃ g, fuel = g + 1 :=
    ⟨fuel - 1, by simp_arith [jsonvSize, goTypeSize] at hf; omega⟩
  simp [unmarshalF, Rat.den_intCast, Rat.num_intCast]

/-- Decoding a JSON number into a float destination. -/
theorem unm_float (q : Rat) : UnmOk .tFloat (.jnum q) (.ok (.vFloat q)) := by
  intro fuel hf
  obtain ⟨g, rfl⟩ : ∃ g, fuel = g + 1 :=
    ⟨fuel - 1, by simp_arith [jsonvSize, goTypeSize] at hf; omega⟩
  simp [unmarshalF]

/-- Decoding a JSON string into a string destination. -/
theorem unm_str (s : String) : UnmOk .tString (.jstr s) (.ok (.vStr s)) := by
  intro fuel hf
  obtain ⟨g, rfl⟩ : ∃ g, fuel = g + 1 :=
    ⟨fuel - 1, by simp_arith [jsonvSize, goTypeSize] at hf; omega⟩
  simp [unmarshalF]

/-- Decoding a JSON object into a struct destination. -/
theorem unm_struct (fts : GoTypeFields) (entries : List (String × Jsonv)) (fs : GoFields)
    (h : UnmFieldsOk fts entries (.ok fs)) :
    UnmOk (.tStruct fts) (.jobj entries) (.ok (.vStruct fs)) := by
  intro fuel hf
  obtain ⟨g, rfl⟩ : ∃ g, fuel = g + 1 :=
    ⟨fuel - 1, by
      have := goTypeFieldsSize_pos fts
      simp_arith [jsonvSize, goTypeSize] at hf
      omega⟩
  simp only [unmarshalF]
  rw [h g (by simp_arith [jsonvSize, goTypeSize] at hf ⊢; omega)]

/-- Decoding a non-null JSON document into a pointer destination fills
a fresh pointee. -/
theorem unm_ptr (te : GoType) (j : Jsonv) (w : GoValue) (hnn : j ≠ .jnull)
    (h : UnmOk te j (.ok w)) : UnmOk (.tPtr te) j (.ok (.vPtrTo w)) := by
  intro fuel hf
  obtain ⟨g, rfl⟩ : ∃ g, fuel = g + 1 :=
    ⟨fuel - 1, by
      have := goTypeSize_pos te
      have := jsonvSize_pos j
      simp_arith [goTypeSize] at hf
      omega⟩
  cases j with
  | jnull => exact absurd rfl hnn
  | jbool b =>
    simp only [unmarshalF]
    rw [h g (by simp_arith [goTypeSize, jsonvSize] at hf ⊢; omega)]
  | jnum q =>
    simp only [unmarshalF]
    rw [h g (by simp_arith [goTypeSize, jsonvSize] at hf ⊢; omega)]
  | jstr s =>
    simp only [unmarshalF]
    rw [h g (by simp_arith [goTypeSize, jsonvSize] at hf ⊢; omega)]
  | jarr xs =>
    simp only [unmarshalF]
    rw [h g (by simp_arith [goTypeSize, jsonvSize] at hf ⊢; omega)]
  | jobj kvs =>
    simp only [unmarshalF]
    rw [h g (by simp_arith [goTypeSize, jsonvSize] at hf ⊢; omega)]

/-- Decoding a JSON array into a slice destination. -/
theorem unm_slice (te : GoType) (js : List Jsonv) (xs : GoValues)
    (h : UnmElemsOk te js (.ok xs)) : UnmOk (.tSlice te) (.jarr js) (.ok (.vSliceOf xs)) := by
  intro fuel hf
  obtain ⟨g, rfl⟩ : ∃ g, fuel = g + 1 :=
    ⟨fuel - 1, by
      have := goTypeSize_pos te
      simp_arith [goTypeSize, jsonvSize] at hf
      omega⟩
  simp only [unmarshalF]
  rw [h g (by simp_arith [goTypeSize, jsonvSize] at hf ⊢; omega)]

/-- Decoding a JSON object into a map destination. -/
theorem unm_map (te : GoType) (es : List (String × Jsonv)) (kvs : GoKvs)
    (h : UnmKvsOk te es (.ok kvs)) : UnmOk (.tMap te) (.jobj es) (.ok (.vMapOf kvs)) := by
  intro fuel hf
  obtain ⟨g, rfl⟩ : ∃ g, fuel = g + 1 :=
    ⟨fuel - 1, by
      have := goTypeSize_pos te
      simp_arith [goTypeSize, jsonvSize] at hf
      omega⟩
  simp only [unmarshalF]
  rw [h g (by simp_arith [goTypeSize, jsonvSize] at hf ⊢; omega)]

/-- Decoding a struct destination with no fields. -/
theorem unmf_nil (entries : List (String × Jsonv)) : UnmFieldsOk .nil entries (.ok .nil) := by
  intro fuel hf
  obtain ⟨g, rfl⟩ : ∃ g, fuel = g + 1 :=
    ⟨fuel - 1, by
      have := jsonvObjSize_pos entries
      simp_arith [goTypeFieldsSize] at hf
      omega⟩
  simp [unmarshalFieldsF]

/-- Decoding a struct field whose key is present among the entries. -/
theorem unmf_cons_found (n t : String) (ty : GoType) (rest : GoTypeFields)
    (entries : List (String × Jsonv)) (j : Jsonv) (v : GoValue) (fs : GoFields)
    (ht : ¬(t = "-")) (hl : lookupKey (jsonKeyOf n t) entries = some j)
    (hv : UnmOk ty j (.ok v)) (hrest : UnmFieldsOk rest entries (.ok fs)) :
    UnmFieldsOk (.cons n t ty rest) entries (.ok (.cons n t v fs)) := by
  intro fuel hf
  obtain ⟨g, rfl⟩ : ∃ g, fuel = g + 1 :=
    ⟨fuel - 1, by
      have := jsonvObjSize_pos entries
      have := goTypeSize_pos ty
      simp_arith [goTypeFieldsSize] at hf
      omega⟩
  have hjs : jsonvSize j < jsonvObjSize entries := by
    rcases lookupKey_mem hl with ⟨k2, hm⟩
    exact mem_objSize hm
  simp only [unmarshalFieldsF]
  rw [if_neg ht, hl]
  dsimp only
  rw [hv g (by simp_arith [goTypeFieldsSize] at hf ⊢; omega)]
  dsimp only
  rw [hrest g (by
    have := goTypeSize_pos ty
    simp_arith [goTypeFieldsSize] at hf ⊢
    omega)]

/-- Decoding a struct field whose key is absent from the entries
leaves the field zero. -/
theorem unmf_cons_absent (n t : String) (ty : GoType) (rest : GoTypeFields)
    (entries : List (String × Jsonv)) (fs : GoFields)
    (ht : ¬(t = "-")) (hl : lookupKey (jsonKeyOf n t) entries = none)
    (hrest : UnmFieldsOk rest entries (.ok fs)) :
    UnmFieldsOk (.cons n t ty rest) entries (.ok (.cons n t (zeroOfType ty) fs)) := by
  intro fuel hf
  obtain ⟨g, rfl⟩ : ∃ g, fuel = g + 1 :=
    ⟨fuel - 1, by
      have := jsonvObjSize_pos entries
      have := goTypeSize_pos ty
      simp_arith [goTypeFieldsSize] at hf
      omega⟩
  simp only [unmarshalFieldsF]
  rw [if_neg ht, hl]
  dsimp only
  rw [hrest g (by
    have := goTypeSize_pos ty
    simp_arith [goTypeFieldsSize] at hf ⊢
    omega)]

/-- Decoding an empty JSON array of slice elements. -/
theorem unme_nil (te : GoType) : UnmElemsOk te [] (.ok .nil) := by
  intro fuel hf
  obtain ⟨g, rfl⟩ : ∃ g, fuel = g + 1 :=
    ⟨fuel - 1, by
      have := goTypeSize_pos te
      simp_arith [jsonvListSize] at hf
      omega⟩
  simp [unmarshalElemsF]

/-- Decoding a JSON array element by element. -/
theorem unme_cons (te : GoType) (j : Jsonv) (js : List Jsonv) (v : GoValue) (vs : GoValues)
    (hv : UnmOk te j (.ok v)) (hrest : UnmElemsOk te js (.ok vs)) :
    UnmElemsOk te (j :: js) (.ok (.cons v vs)) := by
  intro fuel hf
  obtain ⟨g, rfl⟩ : ∃ g, fuel = g + 1 :=
    ⟨fuel - 1, by
      have := goTypeSize_pos te
      simp_arith [jsonvListSize] at hf
      omega⟩
  simp only [unmarshalElemsF]
  rw [hv g (by simp_arith [jsonvListSize] at hf ⊢; omega)]
  dsimp only
  rw [hrest g (by
    have := jsonvSize_pos j
    simp_arith [jsonvListSize] at hf ⊢
    omega)]

/-- Decoding an empty JSON object of map entries. -/
theorem unmk_nil (te : GoType) : UnmKvsOk te [] (.ok .nil) := by
  intro fuel hf
  obtain ⟨g, rfl⟩ : ∃ g, fuel = g + 1 :=
    ⟨fuel - 1, by
      have := goTypeSize_pos te
      simp_arith [jsonvObjSize] at hf
      omega⟩
  simp [unmarshalMapF]

/-- Decoding a JSON object entry by entry into a map. -/
theorem unmk_cons (te : GoType) (k : String) (j : Jsonv) (es : List (String × Jsonv))
    (v : GoValue) (kvs : GoKvs)
    (hv : UnmOk te j (.ok v)) (hrest : UnmKvsOk te es (.ok kvs)) :
    UnmKvsOk te ((k, j) :: es) (.ok (.cons k v kvs)) := by
  intro fuel hf
  obtain ⟨g, rfl⟩ : ∃ g, fuel = g + 1 :=
    ⟨fuel - 1, by
      have := goTypeSize_pos te
      simp_arith [jsonvObjSize] at hf
      omega⟩
  simp only [unmarshalMapF]
  rw [hv g (by simp_arith [jsonvObjSize] at hf ⊢; omega)]
  dsimp only
  rw [hrest g (by
    have := jsonvSize_pos j
    simp_arith [jsonvObjSize] at hf ⊢
    omega)]

mutual
/-- The zero value of a type inhabits the type. -/
theorem hasType_zero (ty : GoType) : hasType (zeroOfType ty) ty = true := by
  match ty with
  | .tBool => simp [zeroOfType, hasType]
  | .tInt => simp [zeroOfType, hasType]
  | .tFloat => simp [zeroOfType, hasType]
  | .tString => simp [zeroOfType, hasType]
  | .tStruct fts =>
    have := hasTypeFields_zero fts
    simp [zeroOfType, hasType, this]
  | .tPtr ty => simp [zeroOfType, hasType]
  | .tSlice ty => simp [zeroOfType, hasType]
  | .tMap ty => simp [zeroOfType, hasType]
termination_by sizeOf ty

/-- The zero fields of a struct type inhabit its fields. -/
theorem hasTypeFields_zero (fts : GoTypeFields) :
    hasTypeFields (zeroOfTypeFields fts) fts = true := by
  match fts with
  | .nil => simp [zeroOfTypeFields, hasTypeFields]
  | .cons n t ty rest =>
    have h1 := hasType_zero ty
    have h2 := hasTypeFields_zero rest
    simp [zeroOfTypeFields, hasTypeFields, h1, h2]
termination_by sizeOf fts
end

mutual
/-- Zero values carry no non-nil pointers. -/
theorem noNullPtr_zero (ty : GoType) : noNullPtr (zeroOfType ty) = true := by
  match ty with
  | .tBool => simp [zeroOfType, noNullPtr]
  | .tInt => simp [zeroOfType, noNullPtr]
  | .tFloat => simp [zeroOfType, noNullPtr]
  | .tString => simp [zeroOfType, noNullPtr]
  | .tStruct fts =>
    have := noNullPtrFields_zero fts
    simp [zeroOfType, noNullPtr, this]
  | .tPtr ty => simp [zeroOfType, noNullPtr]
  | .tSlice ty => simp [zeroOfType, noNullPtr]
  | .tMap ty => simp [zeroOfType, noNullPtr]
termination_by sizeOf ty

/-- Zero struct fields carry no non-nil pointers. -/
theorem noNullPtrFields_zero (fts : GoTypeFields) :
    noNullPtrFields (zeroOfTypeFields fts) = true := by
  match fts with
  | .nil => simp [zeroOfTypeFields, noNullPtrFields]
  | .cons n t ty rest =>
    have h1 := noNullPtr_zero ty
    have h2 := noNullPtrFields_zero rest
    simp [zeroOfTypeFields, noNullPtrFields, h1, h2]
termination_by sizeOf fts
end

/-- Only null-marshalling values marshal to the JSON literal null. -/
theorem marshalsToNull_spec (w : GoValue) (h : marshalValue w = .ok .jnull) :
    marshalsToNull w = true := by
  match w with
  | .vPtrNil => simp [marshalsToNull]
  | .vSliceNil => simp [marshalsToNull]
  | .vMapNil => simp [marshalsToNull]
  | .vPtrTo u =>
    simp only [marshalValue] at h
    have := marshalsToNull_spec u h
    simp [marshalsToNull, this]
  | .vBool b => simp [marshalValue] at h
  | .vInt n => simp [marshalValue] at h
  | .vFloat q => simp [marshalValue] at h
  | .vStr s => simp [marshalValue] at h
  | .vStruct fs =>
    simp only [marshalValue] at h
    split at h
    · simp at h
    · simp at h
  | .vSliceOf xs =>
    simp only [marshalValue] at h
    split at h
    · simp at h
    · simp at h
  | .vMapOf kvs =>
    simp only [marshalValue] at h
    split at h
    · simp at h
    · simp at h
  | .vChan => simp [marshalValue] at h
termination_by sizeOf w

/-- Boolean list containment of a string agrees with membership. -/
theorem containsStr_iff (l : List String) (k : String) : l.contains k = true ↔ k ∈ l := by
  induction l with
  | nil => simp
  | cons x xs ih => simp [List.contains_cons, ih]

/-- Exact lookup misses keys that are not present. -/
theorem lookupExactLast_none_of_not_mem {k : String} {es : List (String × Jsonv)}
    (h : k ∉ es.map Prod.fst) : lookupExactLast k es = none := by
  match es with
  | [] => simp [lookupExactLast]
  | (k2, j2) :: rest =>
    have h1 : k ∉ rest.map Prod.fst := by
      intro hm
      exact h (by simp [hm])
    have h2 : ¬(k2 = k) := by
      intro hk
      exact h (by simp [hk])
    simp [lookupExactLast, lookupExactLast_none_of_not_mem h1, h2]

/-- With distinct keys, exact lookup finds each member entry. -/
theorem lookupExactLast_of_mem {k : String} {j : Jsonv} {es : List (String × Jsonv)}
    (hn : nodupStr (es.map Prod.fst) = true) (h : (k, j) ∈ es) :
    lookupExactLast k es = some j := by
  match es with
  | [] => simp at h
  | (k2, j2) :: rest =>
    simp only [List.map_cons, nodupStr, Bool.and_eq_true, Bool.not_eq_true'] at hn
    rcases List.mem_cons.mp h with heq | hmem
    · injection heq with h1 h2
      subst h1
      subst h2
      have hnm : k ∉ rest.map Prod.fst := by
        intro hm
        rw [(containsStr_iff _ _).mpr hm] at hn
        exact Bool.noConfusion hn.1
      simp [lookupExactLast, lookupExactLast_none_of_not_mem hnm]
    · simp [lookupExactLast, lookupExactLast_of_mem hn.2 hmem]

/-- With distinct keys, the field-matching lookup finds each member
entry. -/
theorem lookupKey_of_mem {k : String} {j : Jsonv} {es : List (String × Jsonv)}
    (hn : nodupStr (es.map Prod.fst) = true) (h : (k, j) ∈ es) :
    lookupKey k es = some j := by
  simp [lookupKey, lookupExactLast_of_mem hn h]

/-- The entry keys of a correspondence are the type keys in order. -/
theorem keys_of_corr {entries : List (String × Jsonv)} {fts : GoTypeFields} {fs : GoFields}
    (h : EntriesCorr entries fts fs) : entries.map Prod.fst = keysOfTypeFields fts := by
  induction h with
  | nil => simp [keysOfTypeFields]
  | cons n t ty j v es fts fs hm hu rest ih => simp [keysOfTypeFields, ih]

/-- The value keys of a correspondence are the type keys in order. -/
theorem keys_fs_of_corr {entries : List (String × Jsonv)} {fts : GoTypeFields} {fs : GoFields}
    (h : EntriesCorr entries fts fs) : goFieldsKeys fs = keysOfTypeFields fts := by
  induction h with
  | nil => simp [goFieldsKeys, keysOfTypeFields]
  | cons n t ty j v es fts fs hm hu rest ih => simp [goFieldsKeys, keysOfTypeFields, ih]

/-- Finding a value by key in a corresponding struct produces its
declared type, its marshalled entry and its stable decoding. -/
theorem corr_find {entries : List (String × Jsonv)} {fts : GoTypeFields} {fs : GoFields}
    (h : EntriesCorr entries fts fs) (k : String) (v : GoValue)
    (hf : findVal k fs = some v) :
    ∃ ty j, findType k fts = some ty ∧ (k, j) ∈ entries ∧
      marshalValue v = .ok j ∧ UnmOk ty j (.ok v) := by
  induction h with
  | nil => simp [findVal] at hf
  | cons n t ty j w es fts fs hm hu rest ih =>
    by_cases hk : jsonKeyOf n t == k
    · simp only [findVal, hk, if_true] at hf
      replace hf : w = v := by simpa using hf
      subst hf
      have hkeq : jsonKeyOf n t = k := by simpa using hk
      subst hkeq
      exact ⟨ty, j, by simp [findType], List.mem_cons_self _ _, hm, hu⟩
    · simp only [findVal, hk, Bool.false_eq_true, if_false] at hf
      rcases ih hf with ⟨ty2, j2, hft, hmem, hm2, hu2⟩
      exact ⟨ty2, j2, by simp [findType, hk, hft], List.mem_cons_of_mem _ hmem, hm2, hu2⟩

/-- A corresponding struct decodes back to its fields from any entry
list in which each of its entries can be looked up. -/
theorem corr_unmfields_aux {es full : List (String × Jsonv)} {fts : GoTypeFields}
    {fs : GoFields} (h : EntriesCorr es fts fs) (hc : cleanFields fts = true)
    (hlook : ∀ k j, (k, j) ∈ es → lookupKey k full = some j) :
    UnmFieldsOk fts full (.ok fs) := by
  induction h with
  | nil => exact unmf_nil full
  | cons n t ty j v es fts fs hm hu rest ih =>
    simp only [cleanFields, Bool.and_eq_true, Bool.not_eq_true'] at hc
    have hdash : ¬(t = "-") := by simpa using hc.1.1.1
    exact unmf_cons_found n t ty _ full j v _ hdash
      (hlook (jsonKeyOf n t) j (List.mem_cons_self _ _)) hu
      (ih hc.2 (fun k2 j2 hm2 => hlook k2 j2 (List.mem_cons_of_mem _ hm2)))

/-- A corresponding struct with distinct keys decodes back to its
fields from its own marshalled entries. -/
theorem corr_unmfields {entries : List (String × Jsonv)} {fts : GoTypeFields}
    {fs : GoFields} (h : EntriesCorr entries fts fs) (hc : cleanFields fts = true)
    (hn : nodupStr (keysOfTypeFields fts) = true) :
    UnmFieldsOk fts entries (.ok fs) := by
  have hkeys := keys_of_corr h
  have hn2 : nodupStr (entries.map Prod.fst) = true := by rw [hkeys]; exact hn
  exact corr_unmfields_aux h hc (fun k j hm => lookupKey_of_mem hn2 hm)

mutual
/-- Round trip: a clean, well-typed value free of null-marshalling
pointees marshals successfully and decodes back to itself at its own
type. -/
theorem rt_val (ty : GoType) (v : GoValue) (hc : cleanType ty = true)
    (ht : hasType v ty = true) (hp : noNullPtr v = true) :
    ∃ j, marshalValue v = .ok j ∧ UnmOk ty j (.ok v) := by
  match ty, v with
  | .tBool, .vBool b => exact ⟨.jbool b, by simp [marshalValue], unm_bool b⟩
  | .tInt, .vInt n => exact ⟨.jnum n, by simp [marshalValue], unm_int n⟩
  | .tFloat, .vFloat q => exact ⟨.jnum q, by simp [marshalValue], unm_float q⟩
  | .tString, .vStr s => exact ⟨.jstr s, by simp [marshalValue], unm_str s⟩
  | .tStruct fts, .vStruct fs =>
    simp only [cleanType, Bool.and_eq_true] at hc
    simp only [hasType] at ht
    simp only [noNullPtr] at hp
    rcases rt_fields fts fs hc.2 ht hp with ⟨en, hmes, hcorr⟩
    exact ⟨.jobj en, by simp [marshalValue, hmes],
      unm_struct fts en fs (corr_unmfields hcorr hc.2 hc.1)⟩
  | .tPtr te, .vPtrNil =>
    refine ⟨.jnull, by simp [marshalValue], ?_⟩
    have := unm_null (.tPtr te)
    simpa [zeroOfType] using this
  | .tPtr te, .vPtrTo w =>
    simp only [cleanType] at hc
    simp only [hasType] at ht
    simp only [noNullPtr, Bool.and_eq_true, Bool.not_eq_true'] at hp
    rcases rt_val te w hc ht hp.2 with ⟨j, hmw, huw⟩
    have hnn : j ≠ .jnull := by
      intro hcon
      subst hcon
      rw [marshalsToNull_spec w hmw] at hp
      exact Bool.noConfusion hp.1
    exact ⟨j, by simpa [marshalValue] using hmw, unm_ptr te j w hnn huw⟩
  | .tSlice te, .vSliceNil =>
    refine ⟨.jnull, by simp [marshalValue], ?_⟩
    have := unm_null (.tSlice te)
    simpa [zeroOfType] using this
  | .tSlice te, .vSliceOf xs =>
    simp only [cleanType] at hc
    simp only [hasType] at ht
    simp only [noNullPtr] at hp
    rcases rt_elems te xs hc ht hp with ⟨js, hmjs, hujs⟩
    exact ⟨.jarr js, by simp [marshalValue, hmjs], unm_slice te js xs hujs⟩
  | .tMap te, .vMapNil =>
    refine ⟨.jnull, by simp [marshalValue], ?_⟩
    have := unm_null (.tMap te)
    simpa [zeroOfType] using this
  | .tMap te, .vMapOf kvs =>
    simp only [cleanType] at hc
    simp only [hasType] at ht
    simp only [noNullPtr] at hp
    rcases rt_kvs te kvs hc ht hp with ⟨es, hmes, hues⟩
    exact ⟨.jobj es, by simp [marshalValue, hmes], unm_map te es kvs hues⟩
  | .tBool, .vInt _ => simp [hasType] at ht
  | .tBool, .vFloat _ => simp [hasType] at ht
  | .tBool, .vStr _ => simp [hasType] at ht
  | .tBool, .vStruct _ => simp [hasType] at ht
  | .tBool, .vPtrNil => simp [hasType] at ht
  | .tBool, .vPtrTo _ => simp [hasType] at ht
  | .tBool, .vSliceNil => simp [hasType] at ht
  | .tBool, .vSliceOf _ => simp [hasType] at ht
  | .tBool, .vMapNil => simp [hasType] at ht
  | .tBool, .vMapOf _ => simp [hasType] at ht
  | .tBool, .vChan => simp [hasType] at ht
  | .tInt, .vBool _ => simp [hasType] at ht
  | .tInt, .vFloat _ => simp [hasType] at ht
  | .tInt, .vStr _ => simp [hasType] at ht
  | .tInt, .vStruct _ => simp [hasType] at ht
  | .tInt, .vPtrNil => simp [hasType] at ht
  | .tInt, .vPtrTo _ => simp [hasType] at ht
  | .tInt, .vSliceNil => simp [hasType] at ht
  | .tInt, .vSliceOf _ => simp [hasType] at ht
  | .tInt, .vMapNil => simp [hasType] at ht
  | .tInt, .vMapOf _ => simp [hasType] at ht
  | .tInt, .vChan => simp [hasType] at ht
  | .tFloat, .vBool _ => simp [hasType] at ht
  | .tFloat, .vInt _ => simp [hasType] at ht
  | .tFloat, .vStr _ => simp [hasType] at ht
  | .tFloat, .vStruct _ => simp [hasType] at ht
  | .tFloat, .vPtrNil => simp [hasType] at ht
  | .tFloat, .vPtrTo _ => simp [hasType] at ht
  | .tFloat, .vSliceNil => simp [hasType] at ht
  | .tFloat, .vSliceOf _ => simp [hasType] at ht
  | .tFloat, .vMapNil => simp [hasType] at ht
  | .tFloat, .vMapOf _ => simp [hasType] at ht
  | .tFloat, .vChan => simp [hasType] at ht
  | .tString, .vBool _ => simp [hasType] at ht
  | .tString, .vInt _ => simp [hasType] at ht
  | .tString, .vFloat _ => simp [hasType] at ht
  | .tString, .vStruct _ => simp [hasType] at ht
  | .tString, .vPtrNil => simp [hasType] at ht
  | .tString, .vPtrTo _ => simp [hasType] at ht
  | .tString, .vSliceNil => simp [hasType] at ht
  | .tString, .vSliceOf _ => simp [hasType] at ht
  | .tString, .vMapNil => simp [hasType] at ht
  | .tString, .vMapOf _ => simp [hasType] at ht
  | .tString, .vChan => simp [hasType] at ht
  | .tStruct _, .vBool _ => simp [hasType] at ht
  | .tStruct _, .vInt _ => simp [hasType] at ht
  | .tStruct _, .vFloat _ => simp [hasType] at ht
  | .tStruct _, .vStr _ => simp [hasType] at ht
  | .tStruct _, .vPtrNil => simp [hasType] at ht
  | .tStruct _, .vPtrTo _ => simp [hasType] at ht
  | .tStruct _, .vSliceNil => simp [hasType] at ht
  | .tStruct _, .vSliceOf _ => simp [hasType] at ht
  | .tStruct _, .vMapNil => simp [hasType] at ht
  | .tStruct _, .vMapOf _ => simp [hasType] at ht
  | .tStruct _, .vChan => simp [hasType] at ht
  | .tPtr _, .vBool _ => simp [hasType] at ht
  | .tPtr _, .vInt _ => simp [hasType] at ht
  | .tPtr _, .vFloat _ => simp [hasType] at ht
  | .tPtr _, .vStr _ => simp [hasType] at ht
  | .tPtr _, .vStruct _ => simp [hasType] at ht
  | .tPtr _, .vSliceNil => simp [hasType] at ht
  | .tPtr _, .vSliceOf _ => simp [hasType] at ht
  | .tPtr _, .vMapNil => simp [hasType] at ht
  | .tPtr _, .vMapOf _ => simp [hasType] at ht
  | .tPtr _, .vChan => simp [hasType] at ht
  | .tSlice _, .vBool _ => simp [hasType] at ht
  | .tSlice _, .vInt _ => simp [hasType] at ht
  | .tSlice _, .vFloat _ => simp [hasType] at ht
  | .tSlice _, .vStr _ => simp [hasType] at ht
  | .tSlice _, .vStruct _ => simp [hasType] at ht
  | .tSlice _, .vPtrNil => simp [hasType] at ht
  | .tSlice _, .vPtrTo _ => simp [hasType] at ht
  | .tSlice _, .vMapNil => simp [hasType] at ht
  | .tSlice _, .vMapOf _ => simp [hasType] at ht
  | .tSlice _, .vChan => simp [hasType] at ht
  | .tMap _, .vBool _ => simp [hasType] at ht
  | .tMap _, .vInt _ => simp [hasType] at ht
  | .tMap _, .vFloat _ => simp [hasType] at ht
  | .tMap _, .vStr _ => simp [hasType] at ht
  | .tMap _, .vStruct _ => simp [hasType] at ht
  | .tMap _, .vPtrNil => simp [hasType] at ht
  | .tMap _, .vPtrTo _ => simp [hasType] at ht
  | .tMap _, .vSliceNil => simp [hasType] at ht
  | .tMap _, .vSliceOf _ => simp [hasType] at ht
  | .tMap _, .vChan => simp [hasType] at ht
termination_by sizeOf v

/-- Round trip for all fields of a struct value, producing the
correspondence with its marshalled entries. -/
theorem rt_fields (fts : GoTypeFields) (fs : GoFields) (hc : cleanFields fts = true)
    (ht : hasTypeFields fs fts = true) (hp : noNullPtrFields fs = true) :
    ∃ entries, marshalFields fs = .ok entries ∧ EntriesCorr entries fts fs := by
  match fts, fs with
  | .nil, .nil => exact ⟨[], by simp [marshalFields], EntriesCorr.nil⟩
  | .nil, .cons _ _ _ _ => simp [hasTypeFields] at ht
  | .cons _ _ _ _, .nil => simp [hasTypeFields] at ht
  | .cons n t ty fts, .cons n2 t2 v fs =>
    simp only [hasTypeFields, Bool.and_eq_true, beq_iff_eq] at ht
    obtain ⟨⟨⟨hn, htag⟩, htv⟩, hrest⟩ := ht
    subst hn
    subst htag
    simp only [cleanFields, Bool.and_eq_true, Bool.not_eq_true'] at hc
    simp only [noNullPtrFields, Bool.and_eq_true] at hp
    have hdash : ¬(t2 = "-") := by simpa using hc.1.1.1
    have homit : hasOmitempty t2 = false := by simpa using hc.1.1.2
    rcases rt_val ty v hc.1.2 htv hp.1 with ⟨j, hmv, huv⟩
    rcases rt_fields fts fs hc.2 hrest hp.2 with ⟨es, hmes, hcorr⟩
    refine ⟨(jsonKeyOf n2 t2, j) :: es, ?_, EntriesCorr.cons n2 t2 ty j v es fts fs hmv huv hcorr⟩
    simp [marshalFields, hdash, homit, hmv, hmes]
termination_by sizeOf fs

/-- Round trip for all elements of a slice value. -/
theorem rt_elems (te : GoType) (xs : GoValues) (hc : cleanType te = true)
    (ht : hasTypeElems xs te = true) (hp : noNullPtrElems xs = true) :
    ∃ js, marshalElems xs = .ok js ∧ UnmElemsOk te js (.ok xs) := by
  match xs with
  | .nil => exact ⟨[], by simp [marshalElems], unme_nil te⟩
  | .cons v rest =>
    simp only [hasTypeElems, Bool.and_eq_true] at ht
    simp only [noNullPtrElems, Bool.and_eq_true] at hp
    rcases rt_val te v hc ht.1 hp.1 with ⟨j, hmv, huv⟩
    rcases rt_elems te rest hc ht.2 hp.2 with ⟨js, hmjs, hujs⟩
    exact ⟨j :: js, by simp [marshalElems, hmv, hmjs], unme_cons te j js v rest huv hujs⟩
termination_by sizeOf xs

/-- Round trip for all entries of a map value. -/
theorem rt_kvs (te : GoType) (kvs : GoKvs) (hc : cleanType te = true)
    (ht : hasTypeKvs kvs te = true) (hp : noNullPtrKvs kvs = true) :
    ∃ es, marshalKvs kvs = .ok es ∧ UnmKvsOk te es (.ok kvs) := by
  match kvs with
  | .nil => exact ⟨[], by simp [marshalKvs], unmk_nil te⟩
  | .cons k v rest =>
    simp only [hasTypeKvs, Bool.and_eq_true] at ht
    simp only [noNullPtrKvs, Bool.and_eq_true] at hp
    rcases rt_val te v hc ht.1 hp.1 with ⟨j, hmv, huv⟩
    rcases rt_kvs te rest hc ht.2 hp.2 with ⟨es, hmes, hues⟩
    exact ⟨(k, j) :: es, by simp [marshalKvs, hmv, hmes], unmk_cons te k j es v rest huv hues⟩
termination_by sizeOf kvs
end

/-- A marshal of the source plus a stable decoding at the destination
determine the result of castStruct. -/
theorem cast_ok {s : GoValue} {dest : GoType} {j : Jsonv} {r : Except Unit GoValue}
    (hm : marshalValue s = .ok j) (hu : UnmOk dest j r) :
    castStruct s dest = r := by
  have hb : jsonvSize j ≤ goValueSize s := marshal_size s j hm
  simp only [castStruct, hm]
  exact hu _ (by omega)

/-- A key found among a struct value's fields is a key of the value. -/
theorem findVal_none_iff (k : String) (fs : GoFields) :
    findVal k fs = none ↔ k ∉ goFieldsKeys fs := by
  match fs with
  | .nil => simp [findVal, goFieldsKeys]
  | .cons n t v rest =>
    by_cases hk : jsonKeyOf n t = k
    · simp [findVal, goFieldsKeys, hk]
    · simp [findVal, goFieldsKeys, hk, findVal_none_iff k rest, Ne.symm hk]

/-- A key found among a struct type's fields is a key of the type. -/
theorem findType_none_iff (k : String) (fts : GoTypeFields) :
    findType k fts = none ↔ k ∉ keysOfTypeFields fts := by
  match fts with
  | .nil => simp [findType, keysOfTypeFields]
  | .cons n t ty rest =>
    by_cases hk : jsonKeyOf n t = k
    · simp [findType, keysOfTypeFields, hk]
    · simp [findType, keysOfTypeFields, hk, findType_none_iff k rest, Ne.symm hk]

/-- A found field type comes from a field of the type list carrying
the looked-up key. -/
theorem findType_mem {k : String} {fts : GoTypeFields} {ty : GoType}
    (h : findType k fts = some ty) :
    ∃ n1 t1, (n1, t1, ty) ∈ typeFieldsList fts ∧ jsonKeyOf n1 t1 = k := by
  match fts with
  | .nil => simp [findType] at h
  | .cons n t ty2 rest =>
    simp only [findType] at h
    split at h
    · rename_i hk
      replace h : ty2 = ty := by simpa using h
      subst h
      exact ⟨n, t, by simp [typeFieldsList], by simpa using hk⟩
    · rcases findType_mem h with ⟨n1, t1, hm, hk⟩
      exact ⟨n1, t1, by simp [typeFieldsList, hm], hk⟩

/-- Every key of a struct type comes from one of its fields. -/
theorem mem_keysOfTypeFields {k : String} {fts : GoTypeFields}
    (h : k ∈ keysOfTypeFields fts) :
    ∃ n1 t1 ty1, (n1, t1, ty1) ∈ typeFieldsList fts ∧ jsonKeyOf n1 t1 = k := by
  match fts with
  | .nil => simp [keysOfTypeFields] at h
  | .cons n t ty rest =>
    simp only [keysOfTypeFields, List.mem_cons] at h
    rcases h with heq | hmem
    · exact ⟨n, t, ty, by simp [typeFieldsList], heq.symm⟩
    · rcases mem_keysOfTypeFields hmem with ⟨n1, t1, ty1, hm, hk⟩
      exact ⟨n1, t1, ty1, by simp [typeFieldsList, hm], hk⟩

/-- Cross-compatibility is symmetric. -/
theorem crossCompat_symm {fts gts : GoTypeFields} (h : CrossCompat fts gts) :
    CrossCompat gts fts := by
  intro f1 h1 f2 h2 hl
  rcases h f2 h2 f1 h1 hl.symm with ⟨hk, hty⟩
  exact ⟨hk.symm, hty.symm⟩

/-- Cross-compatibility survives dropping the first destination
field. -/
theorem crossCompat_cons_right {fts rest : GoTypeFields} {n t : String} {ty : GoType}
    (h : CrossCompat fts (.cons n t ty rest)) : CrossCompat fts rest := by
  intro f1 h1 f2 h2 hl
  exact h f1 h1 f2 (by simp [typeFieldsList, h2]) hl

/-- A value found in a well-typed struct value has the type found at
the same key in the struct type. -/
theorem findVal_hasType {fs : GoFields} {fts : GoTypeFields} {k : String} {v : GoValue}
    (ht : hasTypeFields fs fts = true) (hf : findVal k fs = some v) :
    ∃ ty, findType k fts = some ty ∧ hasType v ty = true := by
  match fs, fts with
  | .nil, .nil => simp [findVal] at hf
  | .nil, .cons _ _ _ _ => simp [hasTypeFields] at ht
  | .cons _ _ _ _, .nil => simp [hasTypeFields] at ht
  | .cons n t w rest, .cons n2 t2 ty2 rest2 =>
    simp only [hasTypeFields, Bool.and_eq_true, beq_iff_eq] at ht
    obtain ⟨⟨⟨hn, htag⟩, htv⟩, hrest⟩ := ht
    subst hn
    subst htag
    simp only [findVal] at hf
    split at hf
    · rename_i hk
      replace hf : w = v := by simpa using hf
      subst hf
      exact ⟨ty2, by simp [findType, hk], htv⟩
    · rename_i hk
      rcases findVal_hasType hrest hf with ⟨ty3, hft, hht⟩
      exact ⟨ty3, by simp [findType, hk, hft], hht⟩

/-- A value found in a struct value free of null-marshalling pointees
is itself free of them. -/
theorem findVal_noNullPtr {fs : GoFields} {k : String} {v : GoValue}
    (hp : noNullPtrFields fs = true) (hf : findVal k fs = some v) :
    noNullPtr v = true := by
  match fs with
  | .nil => simp [findVal] at hf
  | .cons n t w rest =>
    simp only [noNullPtrFields, Bool.and_eq_true] at hp
    simp only [findVal] at hf
    split at hf
    · replace hf : w = v := by simpa using hf
      subst hf
      exact hp.1
    · exact findVal_noNullPtr hp.2 hf

/-- A well-typed struct value carries exactly its type's external
keys, in order. -/
theorem goFieldsKeys_of_hasType {fs : GoFields} {fts : GoTypeFields}
    (ht : hasTypeFields fs fts = true) : goFieldsKeys fs = keysOfTypeFields fts := by
  match fs, fts with
  | .nil, .nil => simp [goFieldsKeys, keysOfTypeFields]
  | .nil, .cons _ _ _ _ => simp [hasTypeFields] at ht
  | .cons _ _ _ _, .nil => simp [hasTypeFields] at ht
  | .cons n t w rest, .cons n2 t2 ty2 rest2 =>
    simp only [hasTypeFields, Bool.and_eq_true, beq_iff_eq] at ht
    obtain ⟨⟨⟨hn, htag⟩, _⟩, hrest⟩ := ht
    subst hn
    subst htag
    simp [goFieldsKeys, keysOfTypeFields, goFieldsKeys_of_hasType hrest]

/-- Decoding a corresponding struct's entries at a cross-compatible
clean destination type pulls shared keys from the source fields and
zero-fills the rest. -/
theorem cast_unmfields {entries : List (String × Jsonv)} {fts : GoTypeFields}
    {fs : GoFields} (gts : GoTypeFields)
    (hcg : cleanFields gts = true) (hcc : CrossCompat fts gts)
    (hcorr : EntriesCorr entries fts fs)
    (hnf : nodupStr (keysOfTypeFields fts) = true) :
    UnmFieldsOk gts entries (.ok (sharedPull fs gts)) := by
  match gts with
  | .nil =>
    have h := unmf_nil entries
    simpa [sharedPull] using h
  | .cons n t ty rest =>
    simp only [cleanFields, Bool.and_eq_true, Bool.not_eq_true'] at hcg
    have hdash : ¬(t = "-") := by simpa using hcg.1.1.1
    have hmemhead : (n, t, ty) ∈ typeFieldsList (GoTypeFields.cons n t ty rest) := by
      simp [typeFieldsList]
    have hrest : UnmFieldsOk rest entries (.ok (sharedPull fs rest)) :=
      cast_unmfields rest hcg.2 (crossCompat_cons_right hcc) hcorr hnf
    cases hfv : findVal (jsonKeyOf n t) fs with
    | some v =>
      rcases corr_find hcorr (jsonKeyOf n t) v hfv with ⟨ty2, j, hft, hment, hmv, huv⟩
      rcases findType_mem hft with ⟨n1, t1, hm1, hk1⟩
      have hty : ty2 = ty := by
        have := hcc (n1, t1, ty2) hm1 (n, t, ty) hmemhead (by rw [hk1])
        exact this.2
      rw [hty] at huv
      have hnkeys : nodupStr (entries.map Prod.fst) = true := by
        rw [keys_of_corr hcorr]; exact hnf
      have hl : lookupKey (jsonKeyOf n t) entries = some j :=
        lookupKey_of_mem hnkeys hment
      have h := unmf_cons_found n t ty rest entries j v (sharedPull fs rest)
        hdash hl huv hrest
      simpa [sharedPull, hfv] using h
    | none =>
      have hnotmem : jsonKeyOf n t ∉ goFieldsKeys fs := (findVal_none_iff _ _).mp hfv
      have hkeysfs := keys_fs_of_corr hcorr
      have hkeyses := keys_of_corr hcorr
      have hnotes : jsonKeyOf n t ∉ entries.map Prod.fst := by
        rw [hkeyses, ← hkeysfs]; exact hnotmem
      have hex : lookupExactLast (jsonKeyOf n t) entries = none :=
        lookupExactLast_none_of_not_mem hnotes
      have hfold : lookupFoldLast (jsonKeyOf n t) entries = none := by
        cases hfl : lookupFoldLast (jsonKeyOf n t) entries with
        | none => rfl
        | some j2 =>
          exfalso
          rcases lookupFoldLast_mem hfl with ⟨k2, hm2, hlow⟩
          have hk2 : k2 ∈ keysOfTypeFields fts := by
            rw [← hkeyses]
            exact List.mem_map_of_mem Prod.fst hm2
          rcases mem_keysOfTypeFields hk2 with ⟨n1, t1, ty1, hm1, hk1⟩
          have := hcc (n1, t1, ty1) hm1 (n, t, ty) hmemhead (by rw [hk1, hlow])
          have hkk : k2 = jsonKeyOf n t := by rw [← hk1]; exact this.1
          apply hnotmem
          rw [hkeysfs, ← hkk]
          exact hk2
      have hl : lookupKey (jsonKeyOf n t) entries = none := by
        simp [lookupKey, hex, hfold]
      have h := unmf_cons_absent n t ty rest entries (sharedPull fs rest)
        hdash hl hrest
      simpa [sharedPull, hfv] using h
termination_by sizeOf gts

/-- Casting a clean well-typed struct value to a cross-compatible
clean destination type succeeds and produces the shared pull. -/
theorem cast_struct_eq {fts gts : GoTypeFields} {fs : GoFields}
    (h1 : cleanType (.tStruct fts) = true) (hcg : cleanFields gts = true)
    (hcc : CrossCompat fts gts) (ht : hasTypeFields fs fts = true)
    (hp : noNullPtrFields fs = true) :
    castStruct (.vStruct fs) (.tStruct gts) = .ok (.vStruct (sharedPull fs gts)) := by
  simp only [cleanType, Bool.and_eq_true] at h1
  rcases rt_fields fts fs h1.2 ht hp with ⟨entries, hmes, hcorr⟩
  have hmv : marshalValue (.vStruct fs) = .ok (.jobj entries) := by
    simp [marshalValue, hmes]
  have hu := unm_struct gts entries (sharedPull fs gts)
    (cast_unmfields gts hcg hcc hcorr h1.1)
  exact cast_ok hmv hu

/-- The pulled struct is well typed at the destination type. -/
theorem sharedPull_hasType (gts : GoTypeFields) {fts : GoTypeFields} {fs : GoFields}
    (ht : hasTypeFields fs fts = true) (hcc : CrossCompat fts gts) :
    hasTypeFields (sharedPull fs gts) gts = true := by
  match gts with
  | .nil => simp [sharedPull, hasTypeFields]
  | .cons n t ty rest =>
    have hmemhead : (n, t, ty) ∈ typeFieldsList (GoTypeFields.cons n t ty rest) := by
      simp [typeFieldsList]
    have hrest := sharedPull_hasType rest ht (crossCompat_cons_right hcc)
    cases hfv : findVal (jsonKeyOf n t) fs with
    | some v =>
      rcases findVal_hasType ht hfv with ⟨ty2, hft, hht⟩
      rcases findType_mem hft with ⟨n1, t1, hm1, hk1⟩
      have hty : ty2 = ty := by
        have := hcc (n1, t1, ty2) hm1 (n, t, ty) hmemhead (by rw [hk1])
        exact this.2
      rw [hty] at hht
      simp [sharedPull, hfv, hasTypeFields, hht, hrest]
    | none =>
      simp [sharedPull, hfv, hasTypeFields, hasType_zero, hrest]
termination_by sizeOf gts

/-- The pulled struct is free of null-marshalling pointees. -/
theorem sharedPull_noNullPtr (gts : GoTypeFields) {fs : GoFields}
    (hp : noNullPtrFields fs = true) :
    noNullPtrFields (sharedPull fs gts) = true := by
  match gts with
  | .nil => simp [sharedPull, noNullPtrFields]
  | .cons n t ty rest =>
    have hrest := sharedPull_noNullPtr rest hp
    cases hfv : findVal (jsonKeyOf n t) fs with
    | some v =>
      have := findVal_noNullPtr hp hfv
      simp [sharedPull, hfv, noNullPtrFields, this, hrest]
    | none =>
      simp [sharedPull, hfv, noNullPtrFields, noNullPtr_zero, hrest]
termination_by sizeOf gts

/-- Looking up a shared key in the pulled struct gives the source
value when the source has the key and the zero value otherwise. -/
theorem findVal_sharedPull_some {k : String} {gts : GoTypeFields} {ty : GoType}
    (fs : GoFields) (hg : findType k gts = some ty) :
    findVal k (sharedPull fs gts)
      = some (match findVal k fs with | some v => v | none => zeroOfType ty) := by
  match gts with
  | .nil => simp [findType] at hg
  | .cons n t ty2 rest =>
    simp only [findType] at hg
    split at hg
    · rename_i hk
      replace hg : ty2 = ty := by simpa using hg
      subst hg
      replace hk : jsonKeyOf n t = k := by simpa using hk
      subst hk
      simp [sharedPull, findVal]
    · rename_i hk
      replace hk : (jsonKeyOf n t == k) = false := by simpa using hk
      have := findVal_sharedPull_some fs hg
      simp [sharedPull, findVal, hk, this]
termination_by sizeOf gts

/-- A key absent from the destination type is absent from the pulled
struct. -/
theorem findVal_sharedPull_none {k : String} {gts : GoTypeFields}
    (fs : GoFields) (hg : findType k gts = none) :
    findVal k (sharedPull fs gts) = none := by
  match gts with
  | .nil => simp [sharedPull, findVal]
  | .cons n t ty rest =>
    simp only [findType] at hg
    split at hg
    · exact absurd hg (by simp)
    · rename_i hk
      replace hk : (jsonKeyOf n t == k) = false := by simpa using hk
      have := findVal_sharedPull_none fs hg
      simp [sharedPull, findVal, hk, this]
termination_by sizeOf gts

/-- C6: Cast round-trip.  Over clean struct types (no skip markers, no
omitempty options, distinct and case-insensitively unambiguous
external keys) whose shared external keys carry identical field types,
and a well-typed source struct free of pointers to null-marshalling
values: CastStruct from S to D succeeds and produces the shared pull
of the source at D, CastStruct back to S succeeds again, the
round-trip recovers every field whose external key is in both types'
key sets exactly, and a field of S whose key is absent from D comes
back as its type's zero value rather than causing an error. -/
theorem c6_cast_roundtrip (fts gts : GoTypeFields) (fs : GoFields)
    (h1 : cleanType (.tStruct fts) = true)
    (h2 : cleanType (.tStruct gts) = true)
    (hcc : CrossCompat fts gts)
    (ht : hasTypeFields fs fts = true)
    (hp : noNullPtrFields fs = true) :
    castStruct (.vStruct fs) (.tStruct gts) = .ok (.vStruct (sharedPull fs gts)) ∧
    castStruct (.vStruct (sharedPull fs gts)) (.tStruct fts)
      = .ok (.vStruct (sharedPull (sharedPull fs gts) fts)) ∧
    (∀ k, (keysOfTypeFields gts).contains k = true →
      findVal k (sharedPull (sharedPull fs gts) fts) = findVal k fs) ∧
    (∀ k ty, (keysOfTypeFields gts).contains k = false → findType k fts = some ty →
      findVal k (sharedPull (sharedPull fs gts) fts) = some (zeroOfType ty)) := by
  have hcf : cleanFields fts = true := by
    simp only [cleanType, Bool.and_eq_true] at h1
    exact h1.2
  have hcg : cleanFields gts = true := by
    simp only [cleanType, Bool.and_eq_true] at h2
    exact h2.2
  have hcast1 := cast_struct_eq h1 hcg hcc ht hp
  have ht2 : hasTypeFields (sharedPull fs gts) gts = true := sharedPull_hasType gts ht hcc
  have hp2 : noNullPtrFields (sharedPull fs gts) = true := sharedPull_noNullPtr gts hp
  have hcast2 := cast_struct_eq h2 hcf (crossCompat_symm hcc) ht2 hp2
  refine ⟨hcast1, hcast2, ?_, ?_⟩
  · intro k hk
    have hkg : k ∈ keysOfTypeFields gts := (containsStr_iff _ _).mp hk
    cases hft : findType k fts with
    | some tyf =>
      cases hgt : findType k gts with
      | none => exact absurd ((findType_none_iff k gts).mp hgt) (by simpa using hkg)
      | some tyg =>
        have hkfts : k ∈ keysOfTypeFields fts := by
          by_contra hcon
          have := (findType_none_iff k fts).mpr hcon
          rw [this] at hft
          exact Option.noConfusion hft
        cases hfv : findVal k fs with
        | none =>
          exfalso
          have := (findVal_none_iff k fs).mp hfv
          rw [goFieldsKeys_of_hasType ht] at this
          exact this hkfts
        | some v =>
          have hout := findVal_sharedPull_some (sharedPull fs gts) hft
          have hin := findVal_sharedPull_some fs hgt
          rw [hout, hin, hfv]
    | none =>
      have hout := findVal_sharedPull_none (sharedPull fs gts) hft
      have hfv : findVal k fs = none := by
        rw [findVal_none_iff, goFieldsKeys_of_hasType ht]
        exact (findType_none_iff k fts).mp hft
      rw [hout, hfv]
  · intro k ty hk hft
    have hnmem : k ∉ keysOfTypeFields gts := by
      intro hm
      rw [(containsStr_iff _ _).mpr hm] at hk
      exact Bool.noConfusion hk
    have hgt : findType k gts = none := (findType_none_iff k gts).mpr hnmem
    have hout := findVal_sharedPull_some (sharedPull fs gts) hft
    have hin := findVal_sharedPull_none fs hgt
    rw [hout, hin]

/-- C6 counterexample to the unconditional claim: a shared external
key whose two field types differ makes the first cast fail with an
error rather than dropping or zero-filling, and an omitempty field
shared by both types comes back as its zero value (a nil slice) rather
than being recovered (an empty non-nil slice), so without the
compatibility and cleanliness conditions the round trip neither always
succeeds nor always recovers shared fields. -/
theorem c6_cast_roundtrip_cex :
    castStruct (.vStruct (.cons "X" "x" (.vStr "a") .nil))
      (.tStruct (.cons "X" "x" .tInt .nil)) = .error () ∧
    castStruct (.vStruct (.cons "X" "x,omitempty" (.vSliceOf .nil) .nil))
      (.tStruct (.cons "X" "x,omitempty" (.tSlice .tInt) .nil))
      = .ok (.vStruct (.cons "X" "x,omitempty" .vSliceNil .nil)) ∧
    GoValue.vSliceNil ≠ GoValue.vSliceOf .nil := by
  refine ⟨?_, ?_, ?_⟩
  · simp [castStruct, marshalValue, marshalFields, jsonKeyOf, tagHead, tagParts,
      splitCommaAux, hasOmitempty, isEmptyValue, goTypeSize, goTypeFieldsSize,
      goValueSize, goFieldsSize, unmarshalF, unmarshalFieldsF, lookupKey,
      lookupExactLast, lookupFoldLast, zeroOfType]
  · simp [castStruct, marshalValue, marshalFields, jsonKeyOf, tagHead, tagParts,
      splitCommaAux, hasOmitempty, isEmptyValue, goTypeSize, goTypeFieldsSize,
      goValueSize, goFieldsSize, unmarshalF, unmarshalFieldsF, lookupKey,
      lookupExactLast, lookupFoldLast, zeroOfType]
  · intro h
    exact GoValue.noConfusion h

/-- C6 witness: a concrete one-field struct cast to its own type and
looked up after the round trip. -/
theorem c6_cast_roundtrip_witness :
    castStruct (.vStruct (.cons "A" "a" (.vInt 1) .nil)) (.tStruct (.cons "A" "a" .tInt .nil))
      = .ok (.vStruct (sharedPull (.cons "A" "a" (.vInt 1) .nil)
          (.cons "A" "a" .tInt .nil))) ∧
    findVal "a" (sharedPull (sharedPull (.cons "A" "a" (.vInt 1) .nil)
        (.cons "A" "a" .tInt .nil)) (.cons "A" "a" .tInt .nil))
      = findVal "a" (.cons "A" "a" (.vInt 1) .nil) := by
  have h := c6_cast_roundtrip (.cons "A" "a" .tInt .nil) (.cons "A" "a" .tInt .nil)
    (.cons "A" "a" (.vInt 1) .nil)
    (by simp [cleanType, cleanFields, nodupStr, keysOfTypeFields, jsonKeyOf, tagHead,
      tagParts, splitCommaAux, hasOmitempty])
    (by simp [cleanType, cleanFields, nodupStr, keysOfTypeFields, jsonKeyOf, tagHead,
      tagParts, splitCommaAux, hasOmitempty])
    (by
      intro f1 h1 f2 h2 hl
      simp only [typeFieldsList, List.mem_singleton] at h1 h2
      subst h1
      subst h2
      exact ⟨rfl, rfl⟩)
    (by simp [hasTypeFields, hasType])
    (by simp [noNullPtrFields, noNullPtr])
  exact ⟨h.1, h.2.2.1 "a"
    (by simp [keysOfTypeFields, jsonKeyOf, tagHead, tagParts, splitCommaAux])⟩
